import Mathlib

set_option maxHeartbeats 1000000

/-!
Shallow embedding of the keyword-matching and paragraph-extraction pipeline
of the Firm-Report-Web-Crawler repository.

Python strings are modelled as `List Char`.  Each definition below mirrors a
Python function of the repository (`src/utils/text_utils.py`,
`src/crawlers/ganfeng.py`, `src/utils/docx_utils.py`, `src/main.py`); defs
with `Fuel` in the name use the standard fuel encoding of the corresponding
Python loop (fuel bounded by the list length, so the top-level wrappers
compute the same values as the loops they mirror).
-/

/-- Whitespace exactly as Python's `str.strip()` / `str.isspace()` and the
`re` module's `\s` class recognise it on decoded text: tab through carriage
return, the C1 separators 28-31, space, NEL, NBSP, and the Unicode
space-separator code points. -/
def pySpace (c : Char) : Bool :=
  (9 ≤ c.toNat && c.toNat ≤ 13) || (28 ≤ c.toNat && c.toNat ≤ 32) ||
  c.toNat == 0x85 || c.toNat == 0xa0 || c.toNat == 0x1680 ||
  (0x2000 ≤ c.toNat && c.toNat ≤ 0x200a) || c.toNat == 0x2028 ||
  c.toNat == 0x2029 || c.toNat == 0x202f || c.toNat == 0x205f ||
  c.toNat == 0x3000

/-- `src/utils/text_utils.py`, `sanitize_text`: keep a character iff it is a
tab, a newline, or has ordinal at least 32. -/
def sanitize_text (text : List Char) : List Char :=
  text.filter (fun ch => ch == '\t' || ch == '\n' || decide (32 ≤ ch.toNat))

/-- First step of the line-ending normalization at the top of
`find_paragraphs_with_keyword`: Python's `text.replace('\r\n', '\n')`,
a left-to-right non-overlapping replacement. -/
def replaceCRLF : List Char → List Char
  | [] => []
  | [c] => [c]
  | a :: b :: rest =>
    if a = '\r' ∧ b = '\n' then '\n' :: replaceCRLF rest
    else a :: replaceCRLF (b :: rest)

/-- Second step: Python's `text.replace('\r', '\n')`. -/
def replaceCR (text : List Char) : List Char :=
  text.map (fun c => if c == '\r' then '\n' else c)

/-- The two replacements performed at the top of
`find_paragraphs_with_keyword` (text_utils.py line 10). -/
def normalizeNewlines (text : List Char) : List Char :=
  replaceCR (replaceCRLF text)

/-- Normalization as actually composed in every crawl path of the
repository: `sanitize_text` first (ganfeng.py line 112, sinomine.py line
104), then the line-ending conversion inside
`find_paragraphs_with_keyword`. -/
def pipelineNormalize (text : List Char) : List Char :=
  normalizeNewlines (sanitize_text text)

/-- Normalization in the order the spec describes it (convert the
line-ending styles first, then remove control characters); used only to
compare the claimed behaviour with the code's behaviour. -/
def specNormalize (text : List Char) : List Char :=
  sanitize_text (normalizeNewlines text)

/-- Python's `str.strip()`: drop leading and trailing whitespace. -/
def pyStrip (l : List Char) : List Char :=
  ((l.dropWhile pySpace).reverse.dropWhile pySpace).reverse

/-- Python's substring test `needle in hay` on strings. -/
def listContains : List Char → List Char → Bool
  | [], needle => needle.isPrefixOf ([] : List Char)
  | c :: t, needle => needle.isPrefixOf (c :: t) || listContains t needle

/-- Per-character model of Python's `str.lower()`: the ASCII lowercase map,
identity on every other character (in particular on all CJK characters,
which have no case).  The embedding models text over characters whose
Python case mapping is this single-character map, which covers the
repository's ASCII-plus-CJK domain. -/
def toLowerPy (c : Char) : Char :=
  if 65 ≤ c.toNat ∧ c.toNat ≤ 90 then Char.ofNat (c.toNat + 32) else c

/-- Per-character model of Python's `str.upper()` (see `toLowerPy`). -/
def toUpperPy (c : Char) : Char :=
  if 97 ≤ c.toNat ∧ c.toNat ≤ 122 then Char.ofNat (c.toNat - 32) else c

/-- Greedy match of the regex piece `\n+` at the head of a list: the
quantifier is greedy and nothing follows it in the pattern `\n\s*\n+`, so it
consumes the maximal run of newlines; `none` when the head is not `'\n'`. -/
def nlPlusLen : List Char → Option Nat
  | '\n' :: rest => some (1 + (rest.takeWhile (fun c => c == '\n')).length)
  | _ => none

/-- Backtracking match of the regex piece `\s*\n+`: the greedy `\s*` first
tries to consume `k` characters and on failure of the following `\n+`
backtracks one character at a time, exactly as Python's `re` engine does. -/
def starBacktrack (l : List Char) : Nat → Option Nat
  | 0 =>
    match nlPlusLen l with
    | some c => some c
    | none => none
  | k + 1 =>
    match nlPlusLen (l.drop (k + 1)) with
    | some c => some (k + 1 + c)
    | none => starBacktrack l k

/-- Match of `\s*\n+` starting from the greedy maximum (the leading
whitespace run), returning the total number of characters consumed. -/
def starThenPlusLen (l : List Char) : Option Nat :=
  starBacktrack l (l.takeWhile pySpace).length

/-- One left-to-right scan of Python's `re.split(r'\n\s*\n+', text)`: at
each position, if the separator pattern matches (a `'\n'` followed by a
`\s*\n+` match) the accumulated chunk is emitted and scanning resumes after
the match, otherwise the character joins the current chunk.  Fuel is
consumed once per step; `pySplitBlank` supplies enough for the whole
input. -/
def reSplitGo : Nat → List Char → List Char → List (List Char)
  | 0, acc, cs => [acc.reverse ++ cs]
  | _ + 1, acc, [] => [acc.reverse]
  | fuel + 1, acc, c :: rest =>
    if c = '\n' then
      match starThenPlusLen rest with
      | some n => acc.reverse :: reSplitGo fuel [] (rest.drop n)
      | none => reSplitGo fuel (c :: acc) rest
    else reSplitGo fuel (c :: acc) rest

/-- Python's `re.split(r'\n\s*\n+', text)` (text_utils.py line 11). -/
def pySplitBlank (t : List Char) : List (List Char) :=
  reSplitGo (t.length + 1) [] t

/-- The block computation of `find_paragraphs_with_keyword`
(text_utils.py lines 10-11): normalize line endings, split on the
blank-line pattern, strip each chunk and keep only the non-empty ones. -/
def segmentBlocks (text : List Char) : List (List Char) :=
  ((pySplitBlank (normalizeNewlines text)).map pyStrip).filter
    (fun b => !b.isEmpty)

/-- `src/utils/text_utils.py`, `find_paragraphs_with_keyword`: the blocks
of `segment` that contain the lowercased keyword as a substring of their
lowercased text. -/
def find_paragraphs_with_keyword (text keyword : List Char) : List (List Char) :=
  (segmentBlocks text).filter
    (fun blk => listContains (blk.map toLowerPy) (keyword.map toLowerPy))

/-- `src/utils/text_utils.py`, `is_chinese_char`: code point in
U+4E00..U+9FFF. -/
def is_chinese_char (ch : Char) : Bool :=
  decide (0x4e00 ≤ ch.toNat) && decide (ch.toNat ≤ 0x9fff)

/-- The spaced form of one CJK run in `generate_variants`:
Python's `' ' joined run if len(run) >= 2 else run`. -/
def spacedRun (run : List Char) : List Char :=
  if 2 ≤ run.length then List.intersperse ' ' run else run

/-- The scanning loop of `generate_variants` (text_utils.py lines 29-44):
group the keyword into maximal runs of CJK / non-CJK characters, pairing
each run with its spaced form. -/
def genSegs : Nat → List Char → List (List Char × List Char)
  | 0, _ => []
  | _ + 1, [] => []
  | fuel + 1, c :: rest =>
    if is_chinese_char c then
      (c :: rest.takeWhile is_chinese_char,
        spacedRun (c :: rest.takeWhile is_chinese_char)) ::
        genSegs fuel (rest.dropWhile is_chinese_char)
    else
      (c :: rest.takeWhile (fun x => !is_chinese_char x),
        c :: rest.takeWhile (fun x => !is_chinese_char x)) ::
        genSegs fuel (rest.dropWhile (fun x => !is_chinese_char x))

/-- `src/utils/text_utils.py`, `generate_variants`: the original keyword,
plus the concatenation of the runs' spaced forms when it differs. -/
def generate_variants (keyword : List Char) : List (List Char) :=
  let segs := genSegs (keyword.length + 1) keyword
  let orig := (segs.map Prod.fst).flatten
  let spaced_all := (segs.map Prod.snd).flatten
  if spaced_all = orig then [orig] else [orig, spaced_all]

/-- The spec's description of the spaced variant, stated independently of
the run structure: a single ASCII space is inserted between every pair of
adjacent CJK characters and nothing else changes.  (For maximal CJK runs
this is exactly "join each run of length at least 2 with single spaces,
leave runs of length 1 and non-CJK runs unchanged".) -/
def spacedSpec : List Char → List Char
  | [] => []
  | [c] => [c]
  | a :: b :: rest =>
    if is_chinese_char a && is_chinese_char b then a :: ' ' :: spacedSpec (b :: rest)
    else a :: spacedSpec (b :: rest)

/-- Python's `list(dict.fromkeys(paras))` (ganfeng.py line 118): keep the
first occurrence of each element, drop later duplicates. -/
def dedupKeepFirst (seen : List (List Char)) : List (List Char) → List (List Char)
  | [] => []
  | x :: xs =>
    if x ∈ seen then dedupKeepFirst seen xs
    else x :: dedupKeepFirst (x :: seen) xs

/-- The variant loop of `crawl_quarterly_performance` (ganfeng.py lines
114-117): paragraphs found for each variant, concatenated in variant
order. -/
def rawMatches (text keyword : List Char) : List (List Char) :=
  ((generate_variants keyword).map
    (fun v => find_paragraphs_with_keyword text v)).flatten

/-- ganfeng.py line 118: the de-duplicated per-document paragraph list. -/
def matched_paras (text keyword : List Char) : List (List Char) :=
  dedupKeepFirst [] (rawMatches text keyword)

/-- ganfeng.py line 119: the final per-document paragraph list, keeping
only paragraphs that contain at least one CJK character. -/
def keyword_paras (text keyword : List Char) : List (List Char) :=
  (matched_paras text keyword).filter (fun p => p.any is_chinese_char)

/-- The highlight scan of `add_keyword_paragraphs` (docx_utils.py lines
47-49): `re.compile(re.escape(keyword), re.IGNORECASE).finditer(para)`.
The escaped pattern is a literal, so matching is a left-to-right
non-overlapping case-insensitive literal scan; each match is recorded as
its (start, end) span.  `lt` is the lowercased term. -/
def findIter : Nat → List Char → List Char → Nat → List (Nat × Nat)
  | 0, _, _, _ => []
  | _ + 1, lt, [], pos => if lt.isEmpty then [(pos, pos)] else []
  | fuel + 1, lt, c :: rs, pos =>
    if lt.isPrefixOf ((c :: rs).map toLowerPy) then
      if lt.isEmpty then (pos, pos) :: findIter fuel lt rs (pos + 1)
      else (pos, pos + lt.length) ::
        findIter fuel lt (rs.drop (lt.length - 1)) (pos + lt.length)
    else findIter fuel lt rs (pos + 1)

/-- The match spans of the keyword in a paragraph (docx_utils.py lines
47-49). -/
def find_matches (para term : List Char) : List (Nat × Nat) :=
  findIter (para.length + 1) (term.map toLowerPy) para 0

/-- The keyword-entry loop of `main.py` (lines 47-54): each raw input line
is stripped; a line that is empty after stripping ends keyword entry, any
other line is appended and entry continues. -/
def collect_keywords : List (List Char) → List (List Char)
  | [] => []
  | s :: rest =>
    if (pyStrip s).isEmpty then [] else pyStrip s :: collect_keywords rest

/-- Split a text into its lines at every `'\n'` (n newlines give n+1
lines); used only on the specification side of the segmentation claims. -/
def splitNl : List Char → List (List Char)
  | [] => [[]]
  | c :: rest =>
    if c = '\n' then [] :: splitNl rest
    else
      match splitNl rest with
      | [] => [[c]]
      | l :: ls => (c :: l) :: ls

/-- A blank line in the spec's sense: empty after trimming whitespace. -/
def isBlank (l : List Char) : Bool := l.all pySpace

/-- Group a line list into its maximal runs of consecutive non-blank
lines, skipping the blank lines that separate them (specification side). -/
def groupNBF : Nat → List (List Char) → List (List (List Char))
  | 0, _ => []
  | _ + 1, [] => []
  | fuel + 1, l :: ls =>
    if isBlank l then groupNBF fuel ls
    else ((l :: ls).takeWhile (fun x => !isBlank x)) ::
      groupNBF fuel ((l :: ls).dropWhile (fun x => !isBlank x))

/-- Wrapper for `groupNBF` with enough fuel. -/
def groupNB (ls : List (List Char)) : List (List (List Char)) :=
  groupNBF (ls.length + 1) ls

/-- The spec's segmenter: split on every run of one or more blank lines
(each surviving chunk being its consecutive non-blank lines rejoined with
`'\n'`), trim each chunk, and discard chunks that are empty after
trimming, keeping source order. -/
def segmentSpec (t : List Char) : List (List Char) :=
  ((groupNB (splitNl t)).map
    (fun run => pyStrip (List.intercalate ['\n'] run))).filter
    (fun b => !b.isEmpty)

/-- A text in which the separator pattern `\n\s*\n+` matches at no
position (proof device for analysing the split scan). -/
def sepFree (cs : List Char) : Prop :=
  ∀ pre r, cs = pre ++ '\n' :: r → starThenPlusLen r = none

/-- Locate the leftmost separator match: returns the prefix before the
match, the list after the leading `'\n'` of the match, and the length of
the `\s*\n+` part (proof device for analysing the split scan). -/
def findSep : List Char → Option (List Char × List Char × Nat)
  | [] => none
  | c :: rest =>
    if c = '\n' then
      match starThenPlusLen rest with
      | some n => some ([], rest, n)
      | none =>
        match findSep rest with
        | some (p, r, n) => some (c :: p, r, n)
        | none => none
    else
      match findSep rest with
      | some (p, r, n) => some (c :: p, r, n)
      | none => none

theorem mem_sanitize_ne_cr {t : List Char} {c : Char}
    (h : c ∈ sanitize_text t) : c ≠ '\r' := by
  rcases List.mem_filter.mp h with ⟨-, hp⟩
  intro hc
  subst hc
  simp at hp

theorem replaceCRLF_of_no_cr : ∀ {t : List Char}, '\r' ∉ t → replaceCRLF t = t
  | [], _ => rfl
  | [c], _ => rfl
  | a :: b :: rest, h => by
    have ha : a ≠ '\r' := fun hc => h (by simp [hc])
    have htail : '\r' ∉ b :: rest := fun hm => h (List.mem_cons_of_mem a hm)
    have : replaceCRLF (b :: rest) = b :: rest := replaceCRLF_of_no_cr htail
    rw [replaceCRLF]
    rw [if_neg (fun hand => ha hand.1), this]

theorem replaceCR_of_no_cr {t : List Char} (h : '\r' ∉ t) : replaceCR t = t := by
  unfold replaceCR
  have : ∀ c ∈ t, (if c == '\r' then '\n' else c) = id c := by
    intro c hc
    have : c ≠ '\r' := fun he => h (he ▸ hc)
    simp [this]
  rw [List.map_congr_left this, List.map_id]

theorem normalizeNewlines_of_no_cr {t : List Char} (h : '\r' ∉ t) :
    normalizeNewlines t = t := by
  unfold normalizeNewlines
  rw [replaceCRLF_of_no_cr h, replaceCR_of_no_cr h]

theorem no_cr_sanitize (t : List Char) : '\r' ∉ sanitize_text t :=
  fun h => mem_sanitize_ne_cr h rfl

/-- The crawler pipeline's normalization degenerates to `sanitize_text`:
control-character removal runs first and already deletes every `'\r'`, so
the subsequent line-ending conversion is the identity. -/
theorem pipelineNormalize_eq_sanitize (t : List Char) :
    pipelineNormalize t = sanitize_text t := by
  unfold pipelineNormalize
  exact normalizeNewlines_of_no_cr (no_cr_sanitize t)

theorem sanitize_idem (t : List Char) :
    sanitize_text (sanitize_text t) = sanitize_text t := by
  unfold sanitize_text
  rw [List.filter_eq_self]
  intro c hc
  exact (List.mem_filter.mp hc).2


/-- C3 counterexample: on the input `"a\rb"` the pipeline's normalization
deletes the lone `'\r'` (control-character removal runs before line-ending
conversion), whereas the claimed behaviour — convert every lone `'\r'` to a
single `'\n'`, then remove control characters — would produce `"a\nb"`. -/
theorem c3_counterexample :
    pipelineNormalize ['a', '\r', 'b'] = ['a', 'b'] ∧
    specNormalize ['a', '\r', 'b'] = ['a', '\n', 'b'] ∧
    pipelineNormalize ['a', '\r', 'b'] ≠ specNormalize ['a', '\r', 'b'] := by
  refine ⟨rfl, rfl, ?_⟩
  decide

/-- C3 (amended): normalization as composed in the code removes every
character with ordinal below 32 except tab and newline — in particular
every `'\r'`, so `"\r\n"` collapses to `"\n"` but a lone `'\r'` is deleted
rather than converted — and passes every other character through
unchanged: the whole pipeline equals the `sanitize_text` filter, and no
carriage return survives it. -/
theorem c3_normalize_amended (t : List Char) :
    pipelineNormalize t = sanitize_text t ∧ '\r' ∉ pipelineNormalize t := by
  refine ⟨pipelineNormalize_eq_sanitize t, ?_⟩
  rw [pipelineNormalize_eq_sanitize t]
  exact no_cr_sanitize t

/-- C9: normalization is idempotent — applying the code's normalization
pipeline twice gives the same result as applying it once. -/
theorem c9_normalize_idempotent (t : List Char) :
    pipelineNormalize (pipelineNormalize t) = pipelineNormalize t := by
  rw [pipelineNormalize_eq_sanitize t, pipelineNormalize_eq_sanitize]
  exact sanitize_idem t

theorem genSegs_sufficient (f : Nat) : ∀ (g : Nat) (l : List Char),
    l.length < f → l.length < g → genSegs f l = genSegs g l := by
  induction f with
  | zero => intro g l h₁ _; exact absurd h₁ (Nat.not_lt_zero _)
  | succ f ih =>
    intro g l h₁ h₂
    cases g with
    | zero => exact absurd h₂ (Nat.not_lt_zero _)
    | succ g =>
      cases l with
      | nil => rfl
      | cons c rest =>
        have hrf : rest.length < f := Nat.lt_of_succ_lt_succ h₁
        have hrg : rest.length < g := Nat.lt_of_succ_lt_succ h₂
        cases hic : is_chinese_char c
        · simp only [genSegs, hic, Bool.false_eq_true, if_false]
          congr 1
          exact ih g _
            (Nat.lt_of_le_of_lt (List.dropWhile_sublist _).length_le hrf)
            (Nat.lt_of_le_of_lt (List.dropWhile_sublist _).length_le hrg)
        · simp only [genSegs, hic, if_true]
          congr 1
          exact ih g _
            (Nat.lt_of_le_of_lt (List.dropWhile_sublist _).length_le hrf)
            (Nat.lt_of_le_of_lt (List.dropWhile_sublist _).length_le hrg)

theorem genSegs_fst_flatten (f : Nat) : ∀ l : List Char, l.length < f →
    ((genSegs f l).map Prod.fst).flatten = l := by
  induction f with
  | zero => intro l h; exact absurd h (Nat.not_lt_zero _)
  | succ f ih =>
    intro l h
    cases l with
    | nil => rfl
    | cons c rest =>
      have hrest : rest.length < f := Nat.lt_of_succ_lt_succ h
      cases hic : is_chinese_char c
      · simp only [genSegs, hic, Bool.false_eq_true, if_false, List.map_cons,
          List.flatten_cons]
        rw [ih _ (Nat.lt_of_le_of_lt (List.dropWhile_sublist _).length_le hrest)]
        rw [List.cons_append, List.takeWhile_append_dropWhile]
      · simp only [genSegs, hic, if_true, List.map_cons, List.flatten_cons]
        rw [ih _ (Nat.lt_of_le_of_lt (List.dropWhile_sublist _).length_le hrest)]
        rw [List.cons_append, List.takeWhile_append_dropWhile]

theorem spacedRun_eq_intersperse (run : List Char) :
    spacedRun run = List.intersperse ' ' run := by
  match run with
  | [] => rfl
  | [c] => rfl
  | a :: b :: rest =>
    unfold spacedRun
    rw [if_pos]
    simp [Nat.succ_le_succ, Nat.le_add_left]

theorem spacedSpec_chinese_run : ∀ (w rest' : List Char) (c : Char),
    is_chinese_char c = true → (∀ x ∈ w, is_chinese_char x = true) →
    (∀ d, rest'.head? = some d → is_chinese_char d = false) →
    spacedSpec (c :: (w ++ rest')) =
      List.intersperse ' ' (c :: w) ++ spacedSpec rest' := by
  intro w
  induction w with
  | nil =>
    intro rest' c hc _ hhead
    cases rest' with
    | nil => simp [spacedSpec]
    | cons d t =>
      have hd : is_chinese_char d = false := hhead d rfl
      simp only [List.nil_append, spacedSpec, hd, Bool.and_false,
        Bool.false_eq_true, if_false]
      simp
  | cons e w' ih =>
    intro rest' c hc hall hhead
    have he : is_chinese_char e = true := hall e (List.mem_cons_self e w')
    have hall' : ∀ x ∈ w', is_chinese_char x = true :=
      fun x hx => hall x (List.mem_cons_of_mem e hx)
    have : spacedSpec (c :: e :: (w' ++ rest')) =
        if is_chinese_char c && is_chinese_char e then
          c :: ' ' :: spacedSpec (e :: (w' ++ rest'))
        else c :: spacedSpec (e :: (w' ++ rest')) := rfl
    rw [List.cons_append, this, hc, he]
    simp only [Bool.and_self, if_true]
    rw [ih rest' e he hall' hhead]
    rfl

theorem spacedSpec_other_run : ∀ (w rest' : List Char) (c : Char),
    is_chinese_char c = false → (∀ x ∈ w, is_chinese_char x = false) →
    spacedSpec (c :: (w ++ rest')) = c :: w ++ spacedSpec rest' := by
  intro w
  induction w with
  | nil =>
    intro rest' c hc _
    cases rest' with
    | nil => simp [spacedSpec]
    | cons d t =>
      simp only [List.nil_append, spacedSpec, hc, Bool.false_and,
        Bool.false_eq_true, if_false]
      simp
  | cons e w' ih =>
    intro rest' c hc hall
    have he : is_chinese_char e = false := hall e (List.mem_cons_self e w')
    have hall' : ∀ x ∈ w', is_chinese_char x = false :=
      fun x hx => hall x (List.mem_cons_of_mem e hx)
    have : spacedSpec (c :: e :: (w' ++ rest')) =
        if is_chinese_char c && is_chinese_char e then
          c :: ' ' :: spacedSpec (e :: (w' ++ rest'))
        else c :: spacedSpec (e :: (w' ++ rest')) := rfl
    rw [List.cons_append, this, hc]
    simp only [Bool.false_and, Bool.false_eq_true, if_false]
    rw [ih rest' e he hall']
    rfl

theorem head_dropWhile_false {p : Char → Bool} : ∀ {l : List Char} {d : Char},
    (l.dropWhile p).head? = some d → p d = false := by
  intro l
  induction l with
  | nil => intro d h; simp at h
  | cons c rest ih =>
    intro d h
    by_cases hc : p c = true
    · rw [List.dropWhile_cons_of_pos hc] at h
      exact ih h
    · rw [List.dropWhile_cons_of_neg hc] at h
      simp only [List.head?_cons, Option.some.injEq] at h
      subst h
      exact Bool.eq_false_iff.mpr hc

theorem head_dropWhile_true {p : Char → Bool} : ∀ {l : List Char} {d : Char},
    (l.dropWhile (fun x => !p x)).head? = some d → p d = true := by
  intro l d h
  have := head_dropWhile_false h
  simpa using this

theorem genSegs_snd_flatten (f : Nat) : ∀ l : List Char, l.length < f →
    ((genSegs f l).map Prod.snd).flatten = spacedSpec l := by
  induction f with
  | zero => intro l h; exact absurd h (Nat.not_lt_zero _)
  | succ f ih =>
    intro l h
    cases l with
    | nil => rfl
    | cons c rest =>
      have hrest : rest.length < f := Nat.lt_of_succ_lt_succ h
      cases hic : is_chinese_char c
      · simp only [genSegs, hic, Bool.false_eq_true, if_false, List.map_cons,
          List.flatten_cons]
        rw [ih _ (Nat.lt_of_le_of_lt (List.dropWhile_sublist _).length_le hrest)]
        have hrw : rest = rest.takeWhile (fun x => !is_chinese_char x) ++
            rest.dropWhile (fun x => !is_chinese_char x) :=
          (List.takeWhile_append_dropWhile _ _).symm
        conv_rhs => rw [hrw]
        rw [spacedSpec_other_run _ _ c hic]
        intro x hx
        have := List.mem_takeWhile_imp hx
        simpa using this
      · simp only [genSegs, hic, if_true, List.map_cons, List.flatten_cons]
        rw [ih _ (Nat.lt_of_le_of_lt (List.dropWhile_sublist _).length_le hrest)]
        have hrw : rest = rest.takeWhile is_chinese_char ++
            rest.dropWhile is_chinese_char :=
          (List.takeWhile_append_dropWhile _ _).symm
        conv_rhs => rw [hrw]
        rw [spacedSpec_chinese_run _ _ c hic
          (fun x hx => List.mem_takeWhile_imp hx)
          (fun d hd => head_dropWhile_false hd)]
        rw [spacedRun_eq_intersperse]

theorem generate_variants_eq (k : List Char) :
    generate_variants k =
      if spacedSpec k = k then [k] else [k, spacedSpec k] := by
  unfold generate_variants
  simp only [genSegs_fst_flatten (k.length + 1) k (Nat.lt_succ_self _),
    genSegs_snd_flatten (k.length + 1) k (Nat.lt_succ_self _)]

/-- C1: `generate_variants` returns the original keyword first, followed by
the spaced variant exactly when that variant differs from the keyword, and
nothing else.  `spacedSpec` inserts a single ASCII space between every pair
of adjacent CJK characters, which is precisely "join each maximal CJK run
of length at least 2 with single spaces, leave CJK runs of length 1 and all
non-CJK runs unchanged, and concatenate the runs in order". -/
theorem c1_generate_variants (k : List Char) :
    generate_variants k =
      if spacedSpec k = k then [k] else [k, spacedSpec k] :=
  generate_variants_eq k

theorem spacedSpec_filter_spaces : ∀ l : List Char,
    (spacedSpec l).filter (fun c => !(c == ' ')) =
      l.filter (fun c => !(c == ' '))
  | [] => rfl
  | [c] => rfl
  | a :: b :: rest => by
    have ih := spacedSpec_filter_spaces (b :: rest)
    show (if is_chinese_char a && is_chinese_char b then
        a :: ' ' :: spacedSpec (b :: rest)
      else a :: spacedSpec (b :: rest)).filter (fun c => !(c == ' ')) = _
    by_cases h : (is_chinese_char a && is_chinese_char b) = true
    · rw [if_pos h]
      simp only [List.filter_cons, ih]
      simp
    · rw [if_neg h]
      simp only [List.filter_cons, ih]

/-- C10: every variant returned by `generate_variants` denotes the same
keyword up to spacing — deleting all ASCII spaces from a variant gives the
same string as deleting all ASCII spaces from the keyword. -/
theorem c10_variants_equal_modulo_spaces (k v : List Char)
    (hv : v ∈ generate_variants k) :
    v.filter (fun c => !(c == ' ')) = k.filter (fun c => !(c == ' ')) := by
  rw [generate_variants_eq] at hv
  by_cases h : spacedSpec k = k
  · rw [if_pos h] at hv
    rw [List.mem_singleton.mp hv]
  · rw [if_neg h] at hv
    rcases List.mem_cons.mp hv with h1 | h2
    · rw [h1]
    · rw [List.mem_singleton.mp h2]
      exact spacedSpec_filter_spaces k

/-- Witness for C10 at the keyword `"一二"` and its spaced variant. -/
theorem c10_witness :
    (['一', ' ', '二'] ∈ generate_variants ['一', '二']) ∧
    ['一', ' ', '二'].filter (fun c => !(c == ' ')) =
      ['一', '二'].filter (fun c => !(c == ' ')) :=
  ⟨by decide,
    c10_variants_equal_modulo_spaces ['一', '二'] ['一', ' ', '二'] (by decide)⟩

theorem toNat_ofNat_valid {n : Nat} (h : n < 0xd800) :
    (Char.ofNat n).toNat = n := by
  have hv : n.isValidChar := Or.inl h
  rw [Char.ofNat, dif_pos hv]
  simp [Char.ofNatAux, Char.toNat, UInt32.toNat]

theorem toLowerPy_toLowerPy (c : Char) :
    toLowerPy (toLowerPy c) = toLowerPy c := by
  unfold toLowerPy
  by_cases h : 65 ≤ c.toNat ∧ c.toNat ≤ 90
  · rw [if_pos h]
    have ht : (Char.ofNat (c.toNat + 32)).toNat = c.toNat + 32 :=
      toNat_ofNat_valid (by omega)
    rw [if_neg (by omega)]
  · rw [if_neg h, if_neg h]

theorem toLowerPy_toUpperPy (c : Char) :
    toLowerPy (toUpperPy c) = toLowerPy c := by
  by_cases h : 97 ≤ c.toNat ∧ c.toNat ≤ 122
  · have ht : (Char.ofNat (c.toNat - 32)).toNat = c.toNat - 32 :=
      toNat_ofNat_valid (by omega)
    unfold toUpperPy
    rw [if_pos h]
    unfold toLowerPy
    rw [ht, if_pos (by omega), if_neg (by omega)]
    have hc : c.toNat - 32 + 32 = c.toNat := by omega
    rw [hc, Char.ofNat_toNat]
  · unfold toUpperPy
    rw [if_neg h]

theorem toLowerPy_chinese {c : Char} (h : is_chinese_char c = true) :
    toLowerPy c = c := by
  unfold is_chinese_char at h
  simp only [Bool.and_eq_true, decide_eq_true_eq] at h
  unfold toLowerPy
  rw [if_neg (by omega)]

theorem chinese_of_toLowerPy_chinese {c : Char}
    (h : is_chinese_char (toLowerPy c) = true) : is_chinese_char c = true := by
  unfold toLowerPy at h
  by_cases hc : 65 ≤ c.toNat ∧ c.toNat ≤ 90
  · rw [if_pos hc] at h
    unfold is_chinese_char at h
    have ht : (Char.ofNat (c.toNat + 32)).toNat = c.toNat + 32 :=
      toNat_ofNat_valid (by omega)
    rw [ht] at h
    simp only [Bool.and_eq_true, decide_eq_true_eq] at h
    omega
  · rwa [if_neg hc] at h

theorem isPrefixOf_mem : ∀ {needle hay : List Char},
    needle.isPrefixOf hay = true → ∀ c ∈ needle, c ∈ hay := by
  intro needle
  induction needle with
  | nil => intro hay _ c hc; simp at hc
  | cons a t ih =>
    intro hay h c hc
    cases hay with
    | nil => simp [List.isPrefixOf] at h
    | cons b hs =>
      simp only [List.isPrefixOf, Bool.and_eq_true, beq_iff_eq] at h
      rcases List.mem_cons.mp hc with h1 | h2
      · exact h1 ▸ h.1 ▸ List.mem_cons_self b hs
      · exact List.mem_cons_of_mem b (ih h.2 c h2)

theorem listContains_mem : ∀ {hay needle : List Char},
    listContains hay needle = true → ∀ c ∈ needle, c ∈ hay := by
  intro hay
  induction hay with
  | nil =>
    intro needle h c hc
    cases needle with
    | nil => simp at hc
    | cons a t => simp [listContains, List.isPrefixOf] at h
  | cons b hs ih =>
    intro needle h c hc
    rw [listContains, Bool.or_eq_true] at h
    rcases h with h | h
    · exact isPrefixOf_mem h c hc
    · exact List.mem_cons_of_mem b (ih h c hc)

theorem dedupKeepFirst_nodup_disjoint : ∀ (l seen : List (List Char)),
    (dedupKeepFirst seen l).Nodup ∧ ∀ x ∈ dedupKeepFirst seen l, x ∉ seen := by
  intro l
  induction l with
  | nil =>
    intro seen
    refine ⟨List.nodup_nil, ?_⟩
    intro x hx
    simp [dedupKeepFirst] at hx
  | cons y ys ih =>
    intro seen
    simp only [dedupKeepFirst]
    by_cases hy : y ∈ seen
    · rw [if_pos hy]
      exact ih seen
    · rw [if_neg hy]
      obtain ⟨hnd, hdisj⟩ := ih (y :: seen)
      refine ⟨List.nodup_cons.mpr ⟨?_, hnd⟩, ?_⟩
      · intro hmem
        exact hdisj y hmem (List.mem_cons_self y seen)
      · intro x hx
        rcases List.mem_cons.mp hx with h1 | h2
        · exact h1 ▸ hy
        · intro hxs
          exact hdisj x h2 (List.mem_cons_of_mem y hxs)

theorem dedupKeepFirst_sublist : ∀ (l seen : List (List Char)),
    (dedupKeepFirst seen l).Sublist l := by
  intro l
  induction l with
  | nil => intro seen; simp [dedupKeepFirst]
  | cons y ys ih =>
    intro seen
    simp only [dedupKeepFirst]
    by_cases hy : y ∈ seen
    · rw [if_pos hy]
      exact (ih seen).cons y
    · rw [if_neg hy]
      exact (ih (y :: seen)).cons₂ y

theorem dedupKeepFirst_mem : ∀ (l seen : List (List Char)) (x : List Char),
    x ∈ l → x ∉ seen → x ∈ dedupKeepFirst seen l := by
  intro l
  induction l with
  | nil => intro seen x hx _; simp at hx
  | cons y ys ih =>
    intro seen x hx hxs
    simp only [dedupKeepFirst]
    by_cases hy : y ∈ seen
    · rw [if_pos hy]
      rcases List.mem_cons.mp hx with h1 | h2
      · exact absurd (h1 ▸ hy) hxs
      · exact ih seen x h2 hxs
    · rw [if_neg hy]
      by_cases hxy : x = y
      · rw [hxy]
        exact List.mem_cons_self y _
      · rcases List.mem_cons.mp hx with h1 | h2
        · exact absurd h1 hxy
        · refine List.mem_cons_of_mem y (ih (y :: seen) x h2 ?_)
          intro hmem
          rcases List.mem_cons.mp hmem with h3 | h4
          · exact hxy h3
          · exact hxs h4

theorem mem_keyword_paras_iff (t k p : List Char) :
    p ∈ keyword_paras t k ↔
      p ∈ rawMatches t k ∧ p.any is_chinese_char = true := by
  constructor
  · intro h
    rcases List.mem_filter.mp h with ⟨hm, hpred⟩
    exact ⟨(dedupKeepFirst_sublist _ _).subset hm, hpred⟩
  · rintro ⟨hm, hpred⟩
    exact List.mem_filter.mpr
      ⟨dedupKeepFirst_mem _ [] p hm (List.not_mem_nil p), hpred⟩

theorem keyword_paras_nodup (t k : List Char) : (keyword_paras t k).Nodup :=
  List.Nodup.filter _ (dedupKeepFirst_nodup_disjoint (rawMatches t k) []).1

/-- C2 (amended): in the ganfeng crawl path the optional paragraph filter
requires at least one CJK character (U+4E00..U+9FFF) only — the two
full-width punctuation marks do not qualify; subject to that, a paragraph
is in the final per-keyword list iff some variant matched it and it
contains a CJK character, the list is duplicate-free, and the filter acts
on the de-duplicated list (the result is a sublist of it). -/
theorem c2_cjk_filter_amended (t k : List Char) :
    (∀ p, p ∈ keyword_paras t k ↔
      p ∈ rawMatches t k ∧ p.any is_chinese_char = true) ∧
    (keyword_paras t k).Nodup ∧
    (keyword_paras t k).Sublist (matched_paras t k) :=
  ⟨fun p => mem_keyword_paras_iff t k p, keyword_paras_nodup t k,
    List.filter_sublist _⟩

/-- C2 counterexample: the paragraph `"a。"` matches the keyword `"a"` and
contains the full-width period `。` (U+3002), so by the claim it should be
added to the result; the ganfeng filter drops it because it contains no
character in U+4E00..U+9FFF. -/
theorem c2_counterexample :
    ('。' ∈ (['a', '。'] : List Char)) ∧
    ['a', '。'] ∈ matched_paras ['a', '。'] ['a'] ∧
    ['a', '。'] ∉ keyword_paras ['a', '。'] ['a'] := by
  decide

/-- Witness for C2's amended membership characterisation at a concrete
paragraph containing a CJK character. -/
theorem c2_witness :
    ['汉', '字'] ∈ keyword_paras ['汉', '字'] ['汉'] :=
  ((c2_cjk_filter_amended ['汉', '字'] ['汉']).1 ['汉', '字']).mpr (by decide)

theorem spacedSpec_eq_of_no_chinese : ∀ l : List Char,
    (∀ c ∈ l, is_chinese_char c = false) → spacedSpec l = l
  | [], _ => rfl
  | [c], _ => rfl
  | a :: b :: rest, h => by
    have ha : is_chinese_char a = false := h a (List.mem_cons_self a _)
    have htail : ∀ c ∈ b :: rest, is_chinese_char c = false :=
      fun c hc => h c (List.mem_cons_of_mem a hc)
    have ih := spacedSpec_eq_of_no_chinese (b :: rest) htail
    show (if is_chinese_char a && is_chinese_char b then
        a :: ' ' :: spacedSpec (b :: rest)
      else a :: spacedSpec (b :: rest)) = a :: b :: rest
    rw [ha]
    simp only [Bool.false_and, Bool.false_eq_true, if_false, ih]

theorem exists_chinese_of_spacedSpec_ne {k : List Char}
    (h : spacedSpec k ≠ k) : ∃ c ∈ k, is_chinese_char c = true := by
  by_contra hno
  refine h (spacedSpec_eq_of_no_chinese k ?_)
  intro c hc
  rcases Bool.eq_false_or_eq_true (is_chinese_char c) with hf | ht
  · exact absurd ⟨c, hc, hf⟩ hno
  · exact ht

theorem count_eq_one_of_nodup_mem : ∀ {l : List (List Char)} {a : List Char},
    l.Nodup → a ∈ l → l.count a = 1 := by
  intro l
  induction l with
  | nil => intro a _ ha; simp at ha
  | cons b bs ih =>
    intro a hnd ha
    rcases List.mem_cons.mp ha with h1 | h2
    · subst h1
      rw [List.count_cons_self]
      have hnm : a ∉ bs := (List.nodup_cons.mp hnd).1
      rw [List.count_eq_zero.mpr hnm]
    · have hne : a ≠ b := by
        rintro rfl
        exact (List.nodup_cons.mp hnd).1 h2
      rw [List.count_cons_of_ne hne]
      exact ih (List.nodup_cons.mp hnd).2 h2

/-- C5: a paragraph whose literal text is matched by two different variants
of a keyword appears exactly once in the final per-document paragraph list
for that keyword, and the final list preserves first-seen order of the
variant-concatenated match list (it is a sublist of it). -/
theorem c5_dedup_across_variants (t k p v₁ v₂ : List Char)
    (hv₁ : v₁ ∈ generate_variants k) (hv₂ : v₂ ∈ generate_variants k)
    (hne : v₁ ≠ v₂)
    (hp₁ : p ∈ find_paragraphs_with_keyword t v₁)
    (hp₂ : p ∈ find_paragraphs_with_keyword t v₂) :
    List.count p (keyword_paras t k) = 1 ∧
    (keyword_paras t k).Sublist (rawMatches t k) := by
  have hgv := generate_variants_eq k
  by_cases hs : spacedSpec k = k
  · rw [if_pos hs] at hgv
    rw [hgv] at hv₁ hv₂
    exact absurd ((List.mem_singleton.mp hv₁).trans
      (List.mem_singleton.mp hv₂).symm) hne
  · rw [if_neg hs] at hgv
    obtain ⟨c₀, hc₀mem, hc₀⟩ := exists_chinese_of_spacedSpec_ne hs
    have hpk : p ∈ find_paragraphs_with_keyword t k := by
      rw [hgv] at hv₁ hv₂
      rcases List.mem_cons.mp hv₁ with h1 | h1'
      · exact h1 ▸ hp₁
      · rcases List.mem_cons.mp hv₂ with h2 | h2'
        · exact h2 ▸ hp₂
        · exact absurd ((List.mem_singleton.mp h1').trans
            (List.mem_singleton.mp h2').symm) hne
    have hcontains : listContains (p.map toLowerPy) (k.map toLowerPy) = true :=
      (List.mem_filter.mp hpk).2
    have hc₀p : toLowerPy c₀ ∈ p.map toLowerPy :=
      listContains_mem hcontains _ (List.mem_map_of_mem toLowerPy hc₀mem)
    rw [toLowerPy_chinese hc₀] at hc₀p
    obtain ⟨c', hc'p, hc'low⟩ := List.mem_map.mp hc₀p
    have hc' : is_chinese_char c' = true :=
      chinese_of_toLowerPy_chinese (by rw [hc'low]; exact hc₀)
    have hany : p.any is_chinese_char = true :=
      List.any_eq_true.mpr ⟨c', hc'p, hc'⟩
    have hraw : p ∈ rawMatches t k := by
      unfold rawMatches
      refine List.mem_flatten.mpr ⟨find_paragraphs_with_keyword t k, ?_, hpk⟩
      refine List.mem_map.mpr ⟨k, ?_, rfl⟩
      rw [hgv]
      exact List.mem_cons_self k _
    have hmem : p ∈ keyword_paras t k :=
      (mem_keyword_paras_iff t k p).mpr ⟨hraw, hany⟩
    refine ⟨count_eq_one_of_nodup_mem (keyword_paras_nodup t k) hmem, ?_⟩
    exact (List.filter_sublist _).trans (dedupKeepFirst_sublist _ _)

/-- Witness for C5: the paragraph `"一二 一 二"` is matched both by the
keyword `"一二"` and by its spaced variant `"一 二"`, and appears exactly
once in the final list. -/
theorem c5_witness :
    (['一', '二'] ∈ generate_variants ['一', '二']) ∧
    (['一', ' ', '二'] ∈ generate_variants ['一', '二']) ∧
    (['一', '二'] ≠ (['一', ' ', '二'] : List Char)) ∧
    (['一', '二', ' ', '一', ' ', '二'] ∈ find_paragraphs_with_keyword
      ['一', '二', ' ', '一', ' ', '二'] ['一', '二']) ∧
    (['一', '二', ' ', '一', ' ', '二'] ∈ find_paragraphs_with_keyword
      ['一', '二', ' ', '一', ' ', '二'] ['一', ' ', '二']) ∧
    List.count ['一', '二', ' ', '一', ' ', '二']
      (keyword_paras ['一', '二', ' ', '一', ' ', '二'] ['一', '二']) = 1 :=
  ⟨by decide, by decide, by decide, by decide, by decide,
    (c5_dedup_across_variants ['一', '二', ' ', '一', ' ', '二'] ['一', '二']
      ['一', '二', ' ', '一', ' ', '二'] ['一', '二'] ['一', ' ', '二']
      (by decide) (by decide) (by decide) (by decide) (by decide)).1⟩

theorem findIter_map_upper : ∀ (fuel : Nat) (lt rest : List Char) (pos : Nat),
    findIter fuel lt (rest.map toUpperPy) pos = findIter fuel lt rest pos := by
  intro fuel
  induction fuel with
  | zero => intro lt rest pos; rfl
  | succ f ih =>
    intro lt rest pos
    cases rest with
    | nil => rfl
    | cons c rs =>
      have hmap : ((c :: rs).map toUpperPy).map toLowerPy =
          (c :: rs).map toLowerPy := by
        rw [List.map_map]
        exact List.map_congr_left (fun a _ => toLowerPy_toUpperPy a)
      simp only [List.map_cons] at hmap
      simp only [List.map_cons, findIter, hmap]
      by_cases hpre :
          lt.isPrefixOf (toLowerPy c :: List.map toLowerPy rs) = true
      · rw [if_pos hpre, if_pos hpre]
        by_cases hemp : lt.isEmpty = true
        · rw [if_pos hemp, if_pos hemp, ih]
        · rw [if_neg hemp, if_neg hemp, ← List.map_drop, ih]
      · rw [if_neg hpre, if_neg hpre, ih]

/-- C6: matching is case-insensitive — scanning the uppercased paragraph
for the lowercased keyword produces exactly the same match list (same
count, same offsets) as scanning the original paragraph for the original
keyword. -/
theorem c6_case_insensitive (p k : List Char) :
    find_matches (p.map toUpperPy) (k.map toLowerPy) = find_matches p k := by
  unfold find_matches
  rw [List.length_map]
  have hk : (k.map toLowerPy).map toLowerPy = k.map toLowerPy := by
    rw [List.map_map]
    exact List.map_congr_left (fun a _ => toLowerPy_toLowerPy a)
  rw [hk]
  exact findIter_map_upper (p.length + 1) (k.map toLowerPy) p 0

theorem collect_keywords_no_empty : ∀ inputs : List (List Char),
    [] ∉ collect_keywords inputs := by
  intro inputs
  induction inputs with
  | nil => simp [collect_keywords]
  | cons s rest ih =>
    simp only [collect_keywords]
    by_cases hs : (pyStrip s).isEmpty = true
    · rw [if_pos hs]
      simp
    · rw [if_neg hs]
      intro hmem
      rcases List.mem_cons.mp hmem with h1 | h2
      · rw [← h1] at hs
        simp at hs
      · exact ih h2

/-- C8 (amended): an empty or whitespace-only keyword entry is rejected
before any matching begins — it is never added to the keyword list, so no
scanning is performed for it — but it terminates keyword entry: the run
proceeds with exactly the (stripped) keywords entered before it, and any
entries after it are discarded. -/
theorem c8_empty_keyword_amended (pre : List (List Char)) (s : List Char)
    (post : List (List Char)) (hs : pyStrip s = [])
    (hpre : ∀ x ∈ pre, pyStrip x ≠ []) :
    collect_keywords (pre ++ s :: post) = pre.map pyStrip ∧
    [] ∉ collect_keywords (pre ++ s :: post) := by
  refine ⟨?_, collect_keywords_no_empty _⟩
  induction pre with
  | nil =>
    simp only [List.nil_append, collect_keywords, List.map_nil]
    rw [if_pos (by rw [hs]; rfl)]
  | cons x xs ih =>
    have hx : pyStrip x ≠ [] := hpre x (List.mem_cons_self x xs)
    have hxs : ∀ y ∈ xs, pyStrip y ≠ [] :=
      fun y hy => hpre y (List.mem_cons_of_mem x hy)
    simp only [List.cons_append, collect_keywords, List.map_cons]
    rw [if_neg (by simpa using hx)]
    exact congrArg (fun l => pyStrip x :: l) (ih hxs)

/-- C8 counterexample: with the input stream `["", "a"]` the empty keyword
terminates keyword entry, so the later keyword `"a"` is never collected and
never evaluated — the run does not continue with the remaining keywords as
the claim states. -/
theorem c8_counterexample :
    pyStrip ([] : List Char) = [] ∧
    ['a'] ∉ collect_keywords [[], ['a']] := by
  decide

/-- Witness for C8's amended statement at a concrete input stream. -/
theorem c8_witness :
    pyStrip ([' '] : List Char) = [] ∧
    collect_keywords ([[' ', '锂', ' ']] ++ [' '] :: [['x']]) =
      [[' ', '锂', ' ']].map pyStrip :=
  ⟨by decide, (c8_empty_keyword_amended [[' ', '锂', ' ']] [' '] [['x']]
      (by decide) (by decide)).1⟩

theorem takeWhile_all_of_length_eq {α : Type} {p : α → Bool} :
    ∀ {u : List α}, (u.takeWhile p).length = u.length → ∀ a ∈ u, p a = true := by
  intro u
  induction u with
  | nil => intro _ a ha; simp at ha
  | cons x xs ih =>
    intro h a ha
    rw [List.takeWhile_cons] at h
    by_cases hx : p x = true
    · rw [if_pos hx] at h
      simp only [List.length_cons, Nat.add_right_cancel_iff] at h
      rcases List.mem_cons.mp ha with h1 | h2
      · exact h1 ▸ hx
      · exact ih h a h2
    · rw [if_neg hx] at h
      simp at h

theorem takeWhile_append_stop {α : Type} {p : α → Bool} {u v : List α}
    (h : ∃ a ∈ u, p a = false) : (u ++ v).takeWhile p = u.takeWhile p := by
  rw [List.takeWhile_append]
  rw [if_neg]
  intro hlen
  obtain ⟨a, ha, hpa⟩ := h
  rw [takeWhile_all_of_length_eq hlen a ha] at hpa
  exact absurd hpa (by simp)

theorem dropWhile_append_stop {α : Type} {p : α → Bool} {u v : List α}
    (h : ∃ a ∈ u, p a = false) : (u ++ v).dropWhile p = u.dropWhile p ++ v := by
  rw [List.dropWhile_append]
  rw [if_neg]
  intro hemp
  obtain ⟨a, ha, hpa⟩ := h
  rw [List.isEmpty_iff] at hemp
  rw [List.dropWhile_eq_nil_iff.mp hemp a ha] at hpa
  exact absurd hpa (by simp)

theorem dropWhile_dropWhile {α : Type} {p : α → Bool} (l : List α) :
    (l.dropWhile p).dropWhile p = l.dropWhile p := by
  cases hd : l.dropWhile p with
  | nil => rfl
  | cons c cs =>
    have hc : p c = false := by
      have := List.head?_dropWhile_not p l
      rw [hd] at this
      simpa using this
    rw [List.dropWhile_cons_of_neg (by simp [hc])]

theorem dropWhile_of_head_neg {α : Type} {p : α → Bool} {m : List α}
    (h : ∀ c, m.head? = some c → p c = false) : m.dropWhile p = m := by
  cases m with
  | nil => rfl
  | cons c cs =>
    rw [List.dropWhile_cons_of_neg]
    simp [h c rfl]

theorem getLast?_append_right {α : Type} {w u : List α} (h : u ≠ []) :
    (w ++ u).getLast? = u.getLast? := by
  rw [List.getLast?_append]
  cases hu : u.getLast? with
  | none => exact absurd (List.getLast?_eq_none_iff.mp hu) h
  | some a => rfl

theorem pyStrip_eq_nil_iff {l : List Char} :
    pyStrip l = [] ↔ ∀ c ∈ l, pySpace c = true := by
  unfold pyStrip
  rw [List.reverse_eq_nil_iff, List.dropWhile_eq_nil_iff]
  constructor
  · intro h c hc
    have hsplit := List.takeWhile_append_dropWhile pySpace l
    rw [← hsplit] at hc
    rcases List.mem_append.mp hc with h1 | h2
    · exact List.mem_takeWhile_imp h1
    · exact h c (List.mem_reverse.mpr h2)
  · intro h c hc
    exact h c ((List.dropWhile_sublist pySpace).subset (List.mem_reverse.mp hc))

theorem pyStrip_absorb_left {a x : List Char}
    (h : ∀ c ∈ a, pySpace c = true) : pyStrip (a ++ x) = pyStrip x := by
  unfold pyStrip
  rw [List.dropWhile_append_of_pos h]

theorem pyStrip_absorb_right {x b : List Char}
    (h : ∀ c ∈ b, pySpace c = true) : pyStrip (x ++ b) = pyStrip x := by
  by_cases hall : ∀ c ∈ x, pySpace c = true
  · have h1 : pyStrip (x ++ b) = [] := by
      rw [pyStrip_eq_nil_iff]
      intro c hc
      rcases List.mem_append.mp hc with h1 | h2
      · exact hall c h1
      · exact h c h2
    have h2 : pyStrip x = [] := pyStrip_eq_nil_iff.mpr hall
    rw [h1, h2]
  · have hex : ∃ c ∈ x, pySpace c = false := by
      push_neg at hall
      obtain ⟨c, hc, hp⟩ := hall
      exact ⟨c, hc, by simpa using hp⟩
    unfold pyStrip
    rw [dropWhile_append_stop hex, List.reverse_append,
      List.dropWhile_append_of_pos (by intro c hc; exact h c (List.mem_reverse.mp hc))]

theorem pyStrip_mem {l : List Char} {c : Char} (h : c ∈ pyStrip l) : c ∈ l := by
  unfold pyStrip at h
  rw [List.mem_reverse] at h
  have h2 := (List.dropWhile_sublist pySpace).subset h
  rw [List.mem_reverse] at h2
  exact (List.dropWhile_sublist pySpace).subset h2

theorem pyStrip_idem (l : List Char) : pyStrip (pyStrip l) = pyStrip l := by
  by_cases hnil : pyStrip l = []
  · rw [hnil]
    rfl
  · have hA : (pyStrip l).reverse.dropWhile pySpace = (pyStrip l).reverse := by
      unfold pyStrip
      rw [List.reverse_reverse]
      exact dropWhile_dropWhile _
    have hB : (pyStrip l).dropWhile pySpace = pyStrip l := by
      apply dropWhile_of_head_neg
      intro c hc
      unfold pyStrip at hc
      rw [List.head?_reverse] at hc
      have hY : (l.dropWhile pySpace).reverse.dropWhile pySpace ≠ [] := by
        intro he
        exact hnil (by unfold pyStrip; rw [he]; rfl)
      obtain ⟨w, hw⟩ :=
        List.dropWhile_suffix (l := (l.dropWhile pySpace).reverse) pySpace
      have hgl : ((l.dropWhile pySpace).reverse.dropWhile pySpace).getLast? =
          ((l.dropWhile pySpace).reverse).getLast? := by
        conv_rhs => rw [← hw]
        exact (getLast?_append_right hY).symm
      rw [hgl, List.getLast?_reverse] at hc
      exact head_dropWhile_false hc
    show (((pyStrip l).dropWhile pySpace).reverse.dropWhile pySpace).reverse = pyStrip l
    rw [hB, hA, List.reverse_reverse]

theorem intercalate_nil (s : List Char) : List.intercalate s [] = [] := rfl

theorem intercalate_single (s x : List Char) : List.intercalate s [x] = x := by
  simp [List.intercalate]

theorem intercalate_cons {s x : List Char} {ls : List (List Char)}
    (h : ls ≠ []) :
    List.intercalate s (x :: ls) = x ++ s ++ List.intercalate s ls := by
  cases ls with
  | nil => exact absurd rfl h
  | cons y ls' =>
    show (List.intersperse s (x :: y :: ls')).flatten = _
    rw [List.intersperse_cons_cons]
    simp only [List.flatten_cons]
    rw [List.append_assoc]
    rfl

theorem intercalate_append {s : List Char} : ∀ (pre tail : List (List Char)),
    pre ≠ [] → tail ≠ [] →
    List.intercalate s (pre ++ tail) =
      List.intercalate s pre ++ s ++ List.intercalate s tail := by
  intro pre
  induction pre with
  | nil => intro tail h ht; exact absurd rfl h
  | cons x pre' ih =>
    intro tail _ ht
    cases pre' with
    | nil =>
      simp only [List.cons_append, List.nil_append]
      rw [intercalate_cons ht, intercalate_single]
    | cons z zs =>
      rw [List.cons_append,
        intercalate_cons (show z :: zs ++ tail ≠ [] by simp),
        intercalate_cons (show (z :: zs : List (List Char)) ≠ [] by simp),
        ih tail (by simp) ht]
      simp [List.append_assoc]

theorem mem_intercalate_of_mem {s : List Char} {c : Char} {l : List Char} :
    ∀ {ls : List (List Char)}, c ∈ l → l ∈ ls → c ∈ List.intercalate s ls := by
  intro ls
  induction ls with
  | nil => intro _ h; simp at h
  | cons x ls' ih =>
    intro hc hl
    cases ls' with
    | nil =>
      simp only [List.mem_singleton] at hl
      rw [intercalate_single, ← hl]
      exact hc
    | cons z zs =>
      rw [intercalate_cons (by simp)]
      rcases List.mem_cons.mp hl with h1 | h2
      · exact List.mem_append.mpr (Or.inl (List.mem_append.mpr (Or.inl (h1 ▸ hc))))
      · exact List.mem_append.mpr (Or.inr (ih hc h2))

theorem mem_of_mem_intercalate {s : List Char} {c : Char} :
    ∀ {ls : List (List Char)}, c ∈ List.intercalate s ls →
      c ∈ s ∨ ∃ l ∈ ls, c ∈ l := by
  intro ls
  induction ls with
  | nil => intro h; simp [intercalate_nil] at h
  | cons x ls' ih =>
    intro hc
    cases ls' with
    | nil =>
      rw [intercalate_single] at hc
      exact Or.inr ⟨x, List.mem_cons_self x _, hc⟩
    | cons z zs =>
      rw [intercalate_cons (by simp)] at hc
      rcases List.mem_append.mp hc with h1 | h2
      · rcases List.mem_append.mp h1 with h3 | h4
        · exact Or.inr ⟨x, List.mem_cons_self x _, h3⟩
        · exact Or.inl h4
      · rcases ih h2 with h3 | ⟨l, hl, hcl⟩
        · exact Or.inl h3
        · exact Or.inr ⟨l, List.mem_cons_of_mem x hl, hcl⟩

theorem splitNl_ne_nil : ∀ t : List Char, splitNl t ≠ [] := by
  intro t
  induction t with
  | nil => simp [splitNl]
  | cons c rest ih =>
    simp only [splitNl]
    by_cases hc : c = '\n'
    · rw [if_pos hc]
      simp
    · rw [if_neg hc]
      cases h : splitNl rest with
      | nil => simp
      | cons l ls => simp

theorem splitNl_cons_nl (rest : List Char) :
    splitNl ('\n' :: rest) = [] :: splitNl rest := by
  simp [splitNl]

theorem splitNl_cons_other {c : Char} (hc : c ≠ '\n') {rest : List Char}
    {l : List Char} {ls : List (List Char)} (h : splitNl rest = l :: ls) :
    splitNl (c :: rest) = (c :: l) :: ls := by
  simp only [splitNl]
  rw [if_neg hc, h]

theorem splitNl_append_cons : ∀ (a y : List Char),
    splitNl (a ++ '\n' :: y) = splitNl a ++ splitNl y := by
  intro a
  induction a with
  | nil =>
    intro y
    rw [List.nil_append, splitNl_cons_nl]
    rfl
  | cons c a' ih =>
    intro y
    by_cases hc : c = '\n'
    · subst hc
      rw [List.cons_append, splitNl_cons_nl, splitNl_cons_nl, ih y,
        List.cons_append]
    · cases h : splitNl a' with
      | nil => exact absurd h (splitNl_ne_nil a')
      | cons l ls =>
        have h2 : splitNl (a' ++ '\n' :: y) = l :: (ls ++ splitNl y) := by
          rw [ih y, h, List.cons_append]
        rw [List.cons_append, splitNl_cons_other hc h2,
          splitNl_cons_other hc h, List.cons_append]

theorem splitNl_no_nl : ∀ {a : List Char}, '\n' ∉ a → splitNl a = [a] := by
  intro a
  induction a with
  | nil => intro _; rfl
  | cons c rest ih =>
    intro h
    have hc : c ≠ '\n' := fun he => h (by simp [he])
    have hrest : '\n' ∉ rest := fun hm => h (List.mem_cons_of_mem c hm)
    exact splitNl_cons_other hc (ih hrest)

theorem no_nl_of_mem_splitNl : ∀ {t l : List Char}, l ∈ splitNl t → '\n' ∉ l := by
  intro t
  induction t with
  | nil =>
    intro l hl
    simp only [splitNl, List.mem_singleton] at hl
    simp [hl]
  | cons c rest ih =>
    intro l hl
    by_cases hc : c = '\n'
    · subst hc
      rw [splitNl_cons_nl] at hl
      rcases List.mem_cons.mp hl with h1 | h2
      · simp [h1]
      · exact ih h2
    · cases h : splitNl rest with
      | nil => exact absurd h (splitNl_ne_nil rest)
      | cons l₀ ls =>
        rw [splitNl_cons_other hc h] at hl
        rcases List.mem_cons.mp hl with h1 | h2
        · subst h1
          intro hmem
          rcases List.mem_cons.mp hmem with h3 | h4
          · exact hc h3.symm
          · exact ih (h ▸ List.mem_cons_self l₀ ls) h4
        · exact ih (h ▸ List.mem_cons_of_mem l₀ h2)

theorem mem_of_mem_line : ∀ {t l : List Char} {c : Char},
    l ∈ splitNl t → c ∈ l → c ∈ t := by
  intro t
  induction t with
  | nil =>
    intro l c hl hc
    simp only [splitNl, List.mem_singleton] at hl
    subst hl
    simp at hc
  | cons d rest ih =>
    intro l c hl hc
    by_cases hd : d = '\n'
    · subst hd
      rw [splitNl_cons_nl] at hl
      rcases List.mem_cons.mp hl with h1 | h2
      · subst h1; simp at hc
      · exact List.mem_cons_of_mem _ (ih h2 hc)
    · cases h : splitNl rest with
      | nil => exact absurd h (splitNl_ne_nil rest)
      | cons l₀ ls =>
        rw [splitNl_cons_other hd h] at hl
        rcases List.mem_cons.mp hl with h1 | h2
        · subst h1
          rcases List.mem_cons.mp hc with h3 | h4
          · simp [h3]
          · exact List.mem_cons_of_mem _ (ih (h ▸ List.mem_cons_self l₀ ls) h4)
        · exact List.mem_cons_of_mem _ (ih (h ▸ List.mem_cons_of_mem l₀ h2) hc)

theorem intercalate_splitNl : ∀ t : List Char,
    List.intercalate ['\n'] (splitNl t) = t := by
  intro t
  induction t with
  | nil => rfl
  | cons c rest ih =>
    by_cases hc : c = '\n'
    · subst hc
      rw [splitNl_cons_nl, intercalate_cons (splitNl_ne_nil rest)]
      simp [ih]
    · cases h : splitNl rest with
      | nil => exact absurd h (splitNl_ne_nil rest)
      | cons l ls =>
        rw [splitNl_cons_other hc h]
        rw [h] at ih
        cases ls with
        | nil =>
          rw [intercalate_single]
          rw [intercalate_single] at ih
          rw [ih]
        | cons z zs =>
          rw [intercalate_cons (by simp)]
          rw [intercalate_cons (by simp)] at ih
          simp only [List.cons_append, List.append_assoc] at ih ⊢
          rw [ih]

theorem splitNl_intercalate : ∀ {ls : List (List Char)}, ls ≠ [] →
    (∀ l ∈ ls, '\n' ∉ l) → splitNl (List.intercalate ['\n'] ls) = ls := by
  intro ls
  induction ls with
  | nil => intro h; exact absurd rfl h
  | cons x ls' ih =>
    intro _ hfree
    cases ls' with
    | nil =>
      rw [intercalate_single]
      exact splitNl_no_nl (hfree x (List.mem_cons_self x _))
    | cons z zs =>
      rw [intercalate_cons (by simp)]
      have hx : '\n' ∉ x := hfree x (List.mem_cons_self x _)
      have hre : x ++ ['\n'] ++ List.intercalate ['\n'] (z :: zs) =
          x ++ '\n' :: List.intercalate ['\n'] (z :: zs) := by simp
      rw [hre, splitNl_append_cons, splitNl_no_nl hx,
        ih (by simp) (fun l hl => hfree l (List.mem_cons_of_mem x hl))]
      rfl

theorem takeWhile_all {α : Type} {p : α → Bool} {u : List α}
    (h : ∀ a ∈ u, p a = true) : u.takeWhile p = u := by
  have h2 : (u ++ ([] : List α)).takeWhile p =
      u ++ ([] : List α).takeWhile p := List.takeWhile_append_of_pos h
  simpa using h2

theorem groupNBF_sufficient : ∀ (f g : Nat) (ls : List (List Char)),
    ls.length < f → ls.length < g → groupNBF f ls = groupNBF g ls := by
  intro f
  induction f with
  | zero => intro g ls h₁ _; exact absurd h₁ (Nat.not_lt_zero _)
  | succ f ih =>
    intro g ls h₁ h₂
    cases g with
    | zero => exact absurd h₂ (Nat.not_lt_zero _)
    | succ g =>
      cases ls with
      | nil => rfl
      | cons l ls' =>
        have hf : ls'.length < f := Nat.lt_of_succ_lt_succ h₁
        have hg : ls'.length < g := Nat.lt_of_succ_lt_succ h₂
        simp only [groupNBF]
        by_cases hb : isBlank l = true
        · rw [if_pos hb, if_pos hb]
          exact ih g ls' hf hg
        · rw [if_neg hb, if_neg hb]
          congr 1
          rw [List.dropWhile_cons_of_pos (by simp [Bool.eq_false_iff.mpr hb])]
          exact ih g _
            (Nat.lt_of_le_of_lt (List.dropWhile_sublist _).length_le hf)
            (Nat.lt_of_le_of_lt (List.dropWhile_sublist _).length_le hg)

theorem groupNB_nil : groupNB [] = [] := rfl

theorem groupNB_step_blank {b : List Char} {ys : List (List Char)}
    (h : isBlank b = true) : groupNB (b :: ys) = groupNB ys := by
  unfold groupNB
  simp only [groupNBF, List.length_cons]
  rw [if_pos h]

theorem groupNB_step_run {l : List Char} {ls : List (List Char)}
    (h : isBlank l = false) :
    groupNB (l :: ls) =
      (l :: ls.takeWhile (fun x => !isBlank x)) ::
        groupNB (ls.dropWhile (fun x => !isBlank x)) := by
  unfold groupNB
  simp only [groupNBF, List.length_cons]
  rw [if_neg (by simp [h])]
  have hl : (fun x => !isBlank x) l = true := by simp [h]
  rw [List.takeWhile_cons_of_pos (p := fun x => !isBlank x) (l := ls) hl,
    List.dropWhile_cons_of_pos (p := fun x => !isBlank x) (l := ls) hl]
  congr 1
  exact groupNBF_sufficient _ _ _
    (Nat.lt_succ_of_le (List.dropWhile_sublist _).length_le)
    (Nat.lt_succ_self _)

theorem groupNB_skip_blanks : ∀ {bs ys : List (List Char)},
    (∀ b ∈ bs, isBlank b = true) → groupNB (bs ++ ys) = groupNB ys := by
  intro bs
  induction bs with
  | nil => intro ys _; rfl
  | cons b bs' ih =>
    intro ys h
    rw [List.cons_append, groupNB_step_blank (h b (List.mem_cons_self b _))]
    exact ih (fun x hx => h x (List.mem_cons_of_mem b hx))

theorem groupNB_split_at_blanks : ∀ (N : Nat) (xs bs ys : List (List Char)),
    xs.length ≤ N → bs ≠ [] → (∀ b ∈ bs, isBlank b = true) →
    groupNB (xs ++ bs ++ ys) = groupNB xs ++ groupNB ys := by
  intro N
  induction N with
  | zero =>
    intro xs bs ys hlen hne hb
    have : xs = [] := List.length_eq_zero.mp (Nat.le_zero.mp hlen)
    subst this
    rw [List.nil_append, groupNB_skip_blanks hb, groupNB_nil, List.nil_append]
  | succ N ih =>
    intro xs bs ys hlen hne hb
    cases xs with
    | nil =>
      rw [List.nil_append, groupNB_skip_blanks hb, groupNB_nil, List.nil_append]
    | cons l xs' =>
      have hlen' : xs'.length ≤ N := Nat.le_of_succ_le_succ hlen
      have hshape : (l :: xs') ++ bs ++ ys = l :: (xs' ++ bs ++ ys) := by simp
      rw [hshape]
      by_cases hbl : isBlank l = true
      · rw [groupNB_step_blank hbl, groupNB_step_blank hbl]
        exact ih xs' bs ys hlen' hne hb
      · have hbl' : isBlank l = false := Bool.eq_false_iff.mpr hbl
        rw [groupNB_step_run hbl', groupNB_step_run hbl']
        obtain ⟨b0, bs', hbs⟩ : ∃ b0 bs', bs = b0 :: bs' := by
          cases bs with
          | nil => exact absurd rfl hne
          | cons b0 bs' => exact ⟨b0, bs', rfl⟩
        have hbfail : (fun x => !isBlank x) b0 = false := by
          simp [hb b0 (by rw [hbs]; exact List.mem_cons_self b0 _)]
        have hassoc : xs' ++ bs ++ ys = xs' ++ (bs ++ ys) := by simp
        by_cases hall : ∀ x ∈ xs', (fun x => !isBlank x) x = true
        · have htw : (xs' ++ bs ++ ys).takeWhile (fun x => !isBlank x) = xs' := by
            rw [hassoc, List.takeWhile_append_of_pos hall, hbs,
              List.cons_append,
              List.takeWhile_cons_of_neg (by simp [Bool.eq_false_iff.mp hbfail]),
              List.append_nil]
          have hdw : (xs' ++ bs ++ ys).dropWhile (fun x => !isBlank x) =
              bs ++ ys := by
            rw [hassoc, List.dropWhile_append_of_pos hall, hbs,
              List.cons_append,
              List.dropWhile_cons_of_neg (by simp [Bool.eq_false_iff.mp hbfail]),
              ← List.cons_append]
          rw [htw, hdw, groupNB_skip_blanks hb, takeWhile_all hall,
            List.dropWhile_eq_nil_iff.mpr hall, groupNB_nil, List.cons_append,
            List.nil_append]
        · have hex : ∃ x ∈ xs', (fun x => !isBlank x) x = false := by
            push_neg at hall
            obtain ⟨x, hx, hfx⟩ := hall
            exact ⟨x, hx, by simpa using hfx⟩
          have htw : (xs' ++ bs ++ ys).takeWhile (fun x => !isBlank x) =
              xs'.takeWhile (fun x => !isBlank x) := by
            rw [hassoc, takeWhile_append_stop hex]
          have hdw : (xs' ++ bs ++ ys).dropWhile (fun x => !isBlank x) =
              xs'.dropWhile (fun x => !isBlank x) ++ bs ++ ys := by
            rw [hassoc, dropWhile_append_stop hex, List.append_assoc]
          rw [htw, hdw,
            ih (xs'.dropWhile (fun x => !isBlank x)) bs ys
              (Nat.le_trans (List.dropWhile_sublist _).length_le hlen') hne hb,
            List.cons_append]

theorem groupNB_all_nonblank {xs : List (List Char)} (hne : xs ≠ [])
    (h : ∀ l ∈ xs, isBlank l = false) : groupNB xs = [xs] := by
  cases xs with
  | nil => exact absurd rfl hne
  | cons l xs' =>
    rw [groupNB_step_run (h l (List.mem_cons_self l _))]
    have hall : ∀ x ∈ xs', (fun x => !isBlank x) x = true := by
      intro x hx
      simp [h x (List.mem_cons_of_mem l hx)]
    rw [takeWhile_all hall, List.dropWhile_eq_nil_iff.mpr hall, groupNB_nil]

theorem groupNB_runs_props : ∀ (N : Nat) (ls : List (List Char)),
    ls.length ≤ N → ∀ r ∈ groupNB ls,
      r ≠ [] ∧ (∀ l ∈ r, isBlank l = false) ∧ (∀ l ∈ r, l ∈ ls) := by
  intro N
  induction N with
  | zero =>
    intro ls hlen r hr
    have : ls = [] := List.length_eq_zero.mp (Nat.le_zero.mp hlen)
    subst this
    simp [groupNB_nil] at hr
  | succ N ih =>
    intro ls hlen r hr
    cases ls with
    | nil => simp [groupNB_nil] at hr
    | cons l ls' =>
      have hlen' : ls'.length ≤ N := Nat.le_of_succ_le_succ hlen
      by_cases hbl : isBlank l = true
      · rw [groupNB_step_blank hbl] at hr
        obtain ⟨h1, h2, h3⟩ := ih ls' hlen' r hr
        exact ⟨h1, h2, fun x hx => List.mem_cons_of_mem l (h3 x hx)⟩
      · have hbl' : isBlank l = false := Bool.eq_false_iff.mpr hbl
        rw [groupNB_step_run hbl'] at hr
        rcases List.mem_cons.mp hr with h1 | h2
        · subst h1
          refine ⟨by simp, ?_, ?_⟩
          · intro x hx
            rcases List.mem_cons.mp hx with h3 | h4
            · exact h3 ▸ hbl'
            · have := List.mem_takeWhile_imp h4
              simpa using this
          · intro x hx
            rcases List.mem_cons.mp hx with h3 | h4
            · exact h3 ▸ List.mem_cons_self l ls'
            · exact List.mem_cons_of_mem l
                ((List.takeWhile_sublist _).subset h4)
        · obtain ⟨h1, h2, h3⟩ := ih (ls'.dropWhile (fun x => !isBlank x))
            (Nat.le_trans (List.dropWhile_sublist _).length_le hlen') r h2
          exact ⟨h1, h2, fun x hx =>
            List.mem_cons_of_mem l ((List.dropWhile_sublist _).subset (h3 x hx))⟩

theorem drop_append_len {α : Type} (u v : List α) (m : Nat) :
    (u ++ v).drop (u.length + m) = v.drop m := by
  rw [← List.drop_drop, List.drop_left]

theorem take_append_le {α : Type} {u : List α} (v : List α) {j : Nat}
    (h : j ≤ u.length) : (u ++ v).take j = u.take j := by
  conv_lhs => rw [← List.take_append_drop j u]
  rw [List.append_assoc, List.take_left']
  rw [List.length_take]
  omega

theorem take_of_takeWhile_length {α : Type} (p : α → Bool) (u : List α) :
    u.take (u.takeWhile p).length = u.takeWhile p := by
  have h := List.take_left (u.takeWhile p) (u.dropWhile p)
  rw [List.takeWhile_append_dropWhile] at h
  exact h

theorem pySpace_nl : pySpace '\n' = true := by decide

theorem nlPlusLen_nil : nlPlusLen [] = none := rfl

theorem nlPlusLen_cons_nl (r : List Char) :
    nlPlusLen ('\n' :: r) =
      some (1 + (r.takeWhile (fun c => c == '\n')).length) := rfl

theorem nlPlusLen_cons_other {c : Char} (hc : c ≠ '\n') (r : List Char) :
    nlPlusLen (c :: r) = none := by
  unfold nlPlusLen
  split
  · next heq =>
    rw [List.cons.injEq] at heq
    exact absurd heq.1 hc
  · rfl

theorem nlPlusLen_some_head : ∀ {xs : List Char} {m : Nat},
    nlPlusLen xs = some m → ∃ rest, xs = '\n' :: rest := by
  intro xs m h
  cases xs with
  | nil => simp [nlPlusLen_nil] at h
  | cons c r =>
    by_cases hc : c = '\n'
    · exact ⟨r, by rw [hc]⟩
    · rw [nlPlusLen_cons_other hc] at h
      simp at h

theorem starBacktrack_zero (l : List Char) :
    starBacktrack l 0 =
      match nlPlusLen l with
      | some c => some c
      | none => none := rfl

theorem starBacktrack_succ (l : List Char) (k : Nat) :
    starBacktrack l (k + 1) =
      match nlPlusLen (l.drop (k + 1)) with
      | some c => some (k + 1 + c)
      | none => starBacktrack l k := rfl

theorem starBacktrack_none : ∀ (k : Nat) (l : List Char),
    (∀ j, j ≤ k → nlPlusLen (l.drop j) = none) → starBacktrack l k = none := by
  intro k
  induction k with
  | zero =>
    intro l h
    rw [starBacktrack_zero]
    have h0 := h 0 (Nat.le_refl 0)
    rw [List.drop_zero] at h0
    rw [h0]
  | succ k ih =>
    intro l h
    rw [starBacktrack_succ, h (k + 1) (Nat.le_refl _)]
    exact ih l (fun j hj => h j (Nat.le_succ_of_le hj))

theorem starBacktrack_first : ∀ (k j c : Nat) (l : List Char), j ≤ k →
    nlPlusLen (l.drop j) = some c →
    (∀ i, j < i → i ≤ k → nlPlusLen (l.drop i) = none) →
    starBacktrack l k = some (j + c) := by
  intro k
  induction k with
  | zero =>
    intro j c l hj hsome _
    have hj0 : j = 0 := Nat.le_zero.mp hj
    subst hj0
    rw [List.drop_zero] at hsome
    rw [starBacktrack_zero, hsome]
    simp
  | succ k ih =>
    intro j c l hj hsome hint
    rw [starBacktrack_succ]
    by_cases hjk : j = k + 1
    · subst hjk
      rw [hsome]
    · have hjle : j ≤ k := Nat.lt_succ_iff.mp (Nat.lt_of_le_of_ne hj hjk)
      rw [hint (k + 1) (Nat.lt_succ_of_le hjle) (Nat.le_refl _)]
      exact ih j c l hjle hsome
        (fun i hi hik => hint i hi (Nat.le_succ_of_le hik))

theorem starBacktrack_some_shape : ∀ (k : Nat) (l : List Char) (n : Nat),
    starBacktrack l k = some n →
    ∃ j c, j ≤ k ∧ nlPlusLen (l.drop j) = some c ∧ n = j + c ∧
      (∀ i, j < i → i ≤ k → nlPlusLen (l.drop i) = none) := by
  intro k
  induction k with
  | zero =>
    intro l n h
    rw [starBacktrack_zero] at h
    cases hnl : nlPlusLen l with
    | none => rw [hnl] at h; simp at h
    | some c =>
      rw [hnl] at h
      simp only [Option.some.injEq] at h
      refine ⟨0, c, Nat.le_refl 0, ?_, by omega, ?_⟩
      · rw [List.drop_zero]; exact hnl
      · intro i h1 h2; omega
  | succ k ih =>
    intro l n h
    rw [starBacktrack_succ] at h
    cases hnl : nlPlusLen (l.drop (k + 1)) with
    | some c =>
      rw [hnl] at h
      simp only [Option.some.injEq] at h
      refine ⟨k + 1, c, Nat.le_refl _, hnl, h.symm, ?_⟩
      intro i h1 h2
      omega
    | none =>
      rw [hnl] at h
      obtain ⟨j, c, hj, hsome, hn, hint⟩ := ih l n h
      refine ⟨j, c, Nat.le_succ_of_le hj, hsome, hn, ?_⟩
      intro i h1 h2
      by_cases hik : i = k + 1
      · rw [hik]; exact hnl
      · exact hint i h1 (Nat.lt_succ_iff.mp (Nat.lt_of_le_of_ne h2 hik))

theorem nlPlusLen_none_of_shape : ∀ (v z : List Char),
    (∀ c ∈ v, c ≠ '\n') →
    (z = [] ∨ ∃ d z', z = d :: z' ∧ pySpace d = false) →
    ∀ i, i ≤ v.length → nlPlusLen ((v ++ z).drop i) = none := by
  intro v
  induction v with
  | nil =>
    intro z _ hz i hi
    have hi0 : i = 0 := Nat.le_zero.mp hi
    subst hi0
    rw [List.nil_append, List.drop_zero]
    rcases hz with h1 | ⟨d, z', hdz, hd⟩
    · rw [h1]; exact nlPlusLen_nil
    · rw [hdz]
      refine nlPlusLen_cons_other ?_ z'
      intro he
      rw [he, pySpace_nl] at hd
      simp at hd
  | cons a v' ih =>
    intro z hv hz i hi
    cases i with
    | zero =>
      rw [List.drop_zero, List.cons_append]
      exact nlPlusLen_cons_other (hv a (List.mem_cons_self a v')) _
    | succ i' =>
      rw [List.cons_append]
      show nlPlusLen ((v' ++ z).drop i') = none
      exact ih z (fun c hc => hv c (List.mem_cons_of_mem a hc)) hz i'
        (Nat.le_of_succ_le_succ hi)

theorem no_nl_take_of_drop_heads : ∀ (u : List Char) (m : Nat),
    (∀ i, i < m → nlPlusLen (u.drop i) = none) →
    ∀ c ∈ u.take m, c ≠ '\n' := by
  intro u
  induction u with
  | nil => intro m _ c hc; simp at hc
  | cons a u' ih =>
    intro m h c hc
    cases m with
    | zero => simp at hc
    | succ m' =>
      rw [List.take_cons] at hc
      rcases List.mem_cons.mp hc with h1 | h2
      · subst h1
        intro he
        have h0 := h 0 (Nat.succ_pos m')
        rw [List.drop_zero, he, nlPlusLen_cons_nl] at h0
        simp at h0
      · simp only [Nat.add_sub_cancel] at h2
        refine ih m' ?_ c h2
        intro i hi
        have := h (i + 1) (Nat.succ_lt_succ hi)
        rw [List.drop_succ_cons] at this
        exact this
      · exact Nat.succ_pos m'

theorem wsRun_of_shape {w v z : List Char}
    (hw : ∀ c ∈ w, pySpace c = true)
    (hv : ∀ c ∈ v, pySpace c = true)
    (hvn : ∀ c ∈ v, c ≠ '\n')
    (hz : z = [] ∨ ∃ d z', z = d :: z' ∧ pySpace d = false) :
    (w ++ '\n' :: (v ++ z)).takeWhile pySpace = w ++ '\n' :: v := by
  rw [List.takeWhile_append_of_pos hw,
    List.takeWhile_cons_of_pos pySpace_nl,
    List.takeWhile_append_of_pos hv]
  rcases hz with h1 | ⟨d, z', hdz, hd⟩
  · rw [h1]
    simp
  · rw [hdz, List.takeWhile_cons_of_neg (by simp [hd])]
    simp

theorem starThenPlusLen_of_shape {w v z : List Char}
    (hw : ∀ c ∈ w, pySpace c = true)
    (hv : ∀ c ∈ v, pySpace c = true)
    (hvn : ∀ c ∈ v, c ≠ '\n')
    (hz : z = [] ∨ ∃ d z', z = d :: z' ∧ pySpace d = false) :
    starThenPlusLen (w ++ '\n' :: (v ++ z)) = some (w.length + 1) := by
  unfold starThenPlusLen
  rw [wsRun_of_shape hw hv hvn hz]
  have hklen : (w ++ '\n' :: v).length = w.length + 1 + v.length := by
    simp
    omega
  have hfirst : nlPlusLen ((w ++ '\n' :: (v ++ z)).drop w.length) = some 1 := by
    rw [List.drop_left, nlPlusLen_cons_nl]
    have htw : (v ++ z).takeWhile (fun c => c == '\n') = [] := by
      cases v with
      | nil =>
        rw [List.nil_append]
        rcases hz with h1 | ⟨d, z', hdz, hd⟩
        · rw [h1]
          rfl
        · rw [hdz]
          refine List.takeWhile_cons_of_neg ?_
          simp only [beq_eq_false_iff_ne, ne_eq, beq_iff_eq]
          intro he
          rw [he, pySpace_nl] at hd
          simp at hd
      | cons a v' =>
        rw [List.cons_append]
        refine List.takeWhile_cons_of_neg ?_
        simp [hvn a (List.mem_cons_self a v')]
    rw [htw]
    rfl
  have hint : ∀ i, w.length < i → i ≤ (w ++ '\n' :: v).length →
      nlPlusLen ((w ++ '\n' :: (v ++ z)).drop i) = none := by
    intro i h1 h2
    rw [hklen] at h2
    have hassoc : w ++ '\n' :: (v ++ z) = (w ++ ['\n']) ++ (v ++ z) := by simp
    have hlen1 : (w ++ ['\n']).length = w.length + 1 := by simp
    have hi : i = (w ++ ['\n']).length + (i - w.length - 1) := by
      rw [hlen1]
      omega
    rw [hassoc, hi, drop_append_len]
    exact nlPlusLen_none_of_shape v z hvn hz _ (by omega)
  have := starBacktrack_first (w ++ '\n' :: v).length w.length 1
    (w ++ '\n' :: (v ++ z)) (by rw [hklen]; omega) hfirst hint
  rw [this]

theorem starThenPlusLen_some_shape : ∀ {l : List Char} {n : Nat},
    starThenPlusLen l = some n →
    ∃ w v z, l = w ++ '\n' :: (v ++ z) ∧ n = w.length + 1 ∧
      (∀ c ∈ w, pySpace c = true) ∧ (∀ c ∈ v, pySpace c = true) ∧
      (∀ c ∈ v, c ≠ '\n') ∧
      (z = [] ∨ ∃ d z', z = d :: z' ∧ pySpace d = false) := by
  intro l n h
  unfold starThenPlusLen at h
  obtain ⟨j, c, hj, hsome, hn, hint⟩ := starBacktrack_some_shape _ l n h
  have hWZ : l.takeWhile pySpace ++ l.dropWhile pySpace = l :=
    List.takeWhile_append_dropWhile _ _
  have hdropW : l.drop (l.takeWhile pySpace).length = l.dropWhile pySpace := by
    have hdl := List.drop_left (l.takeWhile pySpace) (l.dropWhile pySpace)
    rw [hWZ] at hdl
    exact hdl
  have hZshape : l.dropWhile pySpace = [] ∨
      ∃ d z', l.dropWhile pySpace = d :: z' ∧ pySpace d = false := by
    cases hzc : l.dropWhile pySpace with
    | nil => exact Or.inl rfl
    | cons d z' =>
      refine Or.inr ⟨d, z', rfl, head_dropWhile_false (l := l) ?_⟩
      rw [hzc]
      rfl
  have hjlt : j < (l.takeWhile pySpace).length := by
    rcases Nat.lt_or_ge j (l.takeWhile pySpace).length with h1 | h2
    · exact h1
    · exfalso
      have hje : j = (l.takeWhile pySpace).length := Nat.le_antisymm hj h2
      rw [hje, hdropW] at hsome
      rcases hZshape with h3 | ⟨d, z', hdz, hd⟩
      · rw [h3, nlPlusLen_nil] at hsome
        simp at hsome
      · rw [hdz, nlPlusLen_cons_other (fun he => by
          rw [he, pySpace_nl] at hd; simp at hd)] at hsome
        simp at hsome
  have hjlen : j ≤ l.length := by
    have := (List.takeWhile_sublist (p := pySpace) (l := l)).length_le
    omega
  obtain ⟨rest, hrest⟩ := nlPlusLen_some_head hsome
  have hsplit : l = l.take j ++ '\n' :: rest := by
    conv_lhs => rw [← List.take_append_drop j l]
    rw [hrest]
  have hrest_eq : rest = l.drop (j + 1) := by
    have hdd : l.drop (j + 1) = (l.drop j).drop 1 := by
      rw [List.drop_drop]
    rw [hdd, hrest]
    simp
  have hww : ∀ x ∈ l.take j, pySpace x = true := by
    intro x hx
    have htj : l.take j = (l.takeWhile pySpace).take j := by
      conv_lhs => rw [← hWZ]
      exact take_append_le _ (le_of_lt hjlt)
    rw [htj] at hx
    exact List.mem_takeWhile_imp ((List.take_sublist _ _).subset hx)
  have hWdecomp : l.takeWhile pySpace =
      l.take j ++ '\n' :: rest.takeWhile pySpace := by
    conv_lhs => rw [hsplit]
    rw [List.takeWhile_append_of_pos hww, List.takeWhile_cons_of_pos pySpace_nl]
  have hWlen : (l.takeWhile pySpace).length =
      j + 1 + (rest.takeWhile pySpace).length := by
    rw [hWdecomp]
    have : (l.take j).length = j := by
      rw [List.length_take]
      omega
    simp [this]
    omega
  have hc1 : c = 1 := by
    rw [hrest, nlPlusLen_cons_nl] at hsome
    simp only [Option.some.injEq] at hsome
    have htw : rest.takeWhile (fun x => x == '\n') = [] := by
      cases hr : rest with
      | nil => rfl
      | cons e r' =>
        have hnone := hint (j + 1) (Nat.lt_succ_self j) (by omega)
        rw [← hrest_eq, hr] at hnone
        by_cases he : e = '\n'
        · rw [he, nlPlusLen_cons_nl] at hnone
          simp at hnone
        · exact List.takeWhile_cons_of_neg (by simp [he])
    rw [htw] at hsome
    simp at hsome
    omega
  refine ⟨l.take j, rest.takeWhile pySpace, rest.dropWhile pySpace,
    ?_, ?_, hww, ?_, ?_, ?_⟩
  · rw [List.takeWhile_append_dropWhile]
    exact hsplit
  · rw [List.length_take]
    omega
  · intro x hx
    exact List.mem_takeWhile_imp hx
  · intro x hx
    rw [← take_of_takeWhile_length pySpace rest] at hx
    refine no_nl_take_of_drop_heads rest _ ?_ x hx
    intro i hi
    have hdd : (rest.drop i) = l.drop (j + 1 + i) := by
      rw [hrest_eq, List.drop_drop]
    rw [hdd]
    exact hint (j + 1 + i) (by omega) (by omega)
  · cases hzc : rest.dropWhile pySpace with
    | nil => exact Or.inl rfl
    | cons d z' =>
      refine Or.inr ⟨d, z', rfl, head_dropWhile_false (l := rest) ?_⟩
      rw [hzc]
      rfl

theorem exists_last_occ {a : Char} : ∀ {u : List Char},
    a ∈ u → ∃ w v, u = w ++ a :: v ∧ a ∉ v := by
  intro u
  induction u with
  | nil => intro h; simp at h
  | cons x u' ih =>
    intro h
    by_cases hm : a ∈ u'
    · obtain ⟨w, v, hu, hv⟩ := ih hm
      exact ⟨x :: w, v, by rw [hu, List.cons_append], hv⟩
    · have hax : a = x := by
        rcases List.mem_cons.mp h with h1 | h2
        · exact h1
        · exact absurd h2 hm
      exact ⟨[], u', by rw [hax, List.nil_append], hm⟩

theorem starThenPlusLen_some_of_nl {l : List Char}
    (h : '\n' ∈ l.takeWhile pySpace) : ∃ n, starThenPlusLen l = some n := by
  obtain ⟨w, v, hsplit, hv⟩ := exists_last_occ h
  have hl : l = w ++ '\n' :: (v ++ l.dropWhile pySpace) := by
    conv_lhs => rw [← List.takeWhile_append_dropWhile pySpace l]
    rw [hsplit, List.append_assoc, List.cons_append]
  have hwws : ∀ c ∈ w, pySpace c = true := fun c hc =>
    List.mem_takeWhile_imp (l := l)
      (by rw [hsplit]; exact List.mem_append.mpr (Or.inl hc))
  have hvws : ∀ c ∈ v, pySpace c = true := fun c hc =>
    List.mem_takeWhile_imp (l := l)
      (by rw [hsplit]
          exact List.mem_append.mpr (Or.inr (List.mem_cons_of_mem _ hc)))
  have hvn : ∀ c ∈ v, c ≠ '\n' := fun c hc he => hv (he ▸ hc)
  have hz : l.dropWhile pySpace = [] ∨
      ∃ d z', l.dropWhile pySpace = d :: z' ∧ pySpace d = false := by
    cases hzc : l.dropWhile pySpace with
    | nil => exact Or.inl rfl
    | cons d z' =>
      refine Or.inr ⟨d, z', rfl, head_dropWhile_false (l := l) ?_⟩
      rw [hzc]
      rfl
  refine ⟨w.length + 1, ?_⟩
  conv_lhs => rw [hl]
  exact starThenPlusLen_of_shape hwws hvws hvn hz

theorem starThenPlusLen_none_of_no_nl {l : List Char}
    (h : '\n' ∉ l.takeWhile pySpace) : starThenPlusLen l = none := by
  cases hs : starThenPlusLen l with
  | none => rfl
  | some n =>
    exfalso
    obtain ⟨w, v, z, hl, -, hw, hvws, hvn, hz⟩ := starThenPlusLen_some_shape hs
    apply h
    rw [hl, wsRun_of_shape hw hvws hvn hz]
    exact List.mem_append.mpr (Or.inr (List.mem_cons_self _ _))

theorem starThenPlusLen_append_some {y q : List Char} {n : Nat}
    (h : starThenPlusLen y = some n) :
    ∃ m, starThenPlusLen (y ++ q) = some m := by
  apply starThenPlusLen_some_of_nl
  obtain ⟨w, v, z, hy, -, hw, hvws, hvn, hz⟩ := starThenPlusLen_some_shape h
  rcases hz with h1 | ⟨d, z', hdz, hd⟩
  · subst h1
    have hyq : y ++ q = (w ++ '\n' :: v) ++ q := by
      rw [hy]
      simp
    rw [hyq]
    have hall : ∀ c ∈ w ++ '\n' :: v, pySpace c = true := by
      intro c hc
      rcases List.mem_append.mp hc with h2 | h3
      · exact hw c h2
      · rcases List.mem_cons.mp h3 with h4 | h5
        · rw [h4]
          exact pySpace_nl
        · exact hvws c h5
    rw [List.takeWhile_append_of_pos hall]
    exact List.mem_append.mpr
      (Or.inl (List.mem_append.mpr (Or.inr (List.mem_cons_self _ _))))
  · rw [hy]
    have hex : ∃ x ∈ w ++ '\n' :: (v ++ z), pySpace x = false := by
      refine ⟨d, ?_, hd⟩
      rw [hdz]
      refine List.mem_append.mpr (Or.inr (List.mem_cons_of_mem _ ?_))
      exact List.mem_append.mpr (Or.inr (List.mem_cons_self _ _))
    rw [takeWhile_append_stop hex,
      wsRun_of_shape hw hvws hvn (Or.inr ⟨d, z', hdz, hd⟩)]
    exact List.mem_append.mpr (Or.inr (List.mem_cons_self _ _))

theorem findSep_none_sepFree : ∀ {cs : List Char}, findSep cs = none → sepFree cs := by
  intro cs
  induction cs with
  | nil =>
    intro _ pre r heq
    exact absurd heq.symm (by simp)
  | cons c rest ih =>
    intro h pre r heq
    simp only [findSep] at h
    by_cases hc : c = '\n'
    · rw [if_pos hc] at h
      cases hst : starThenPlusLen rest with
      | some m => rw [hst] at h; simp at h
      | none =>
        rw [hst] at h
        cases hfs : findSep rest with
        | some pr =>
          rw [hfs] at h
          obtain ⟨p', r', n'⟩ := pr
          simp at h
        | none =>
          cases pre with
          | nil =>
            simp only [List.nil_append, List.cons.injEq] at heq
            rw [← heq.2]
            exact hst
          | cons p₀ pre' =>
            rw [List.cons_append, List.cons.injEq] at heq
            exact ih hfs pre' r heq.2
    · rw [if_neg hc] at h
      cases hfs : findSep rest with
      | some pr =>
        rw [hfs] at h
        obtain ⟨p', r', n'⟩ := pr
        simp at h
      | none =>
        cases pre with
        | nil =>
          simp only [List.nil_append, List.cons.injEq] at heq
          exact absurd heq.1 hc
        | cons p₀ pre' =>
          rw [List.cons_append, List.cons.injEq] at heq
          exact ih hfs pre' r heq.2

theorem findSep_some_shape : ∀ {cs p r : List Char} {n : Nat},
    findSep cs = some (p, r, n) →
    cs = p ++ '\n' :: r ∧ starThenPlusLen r = some n ∧
      ∀ x y, p = x ++ '\n' :: y → starThenPlusLen (y ++ '\n' :: r) = none := by
  intro cs
  induction cs with
  | nil => intro p r n h; simp [findSep] at h
  | cons c rest ih =>
    intro p r n h
    simp only [findSep] at h
    by_cases hc : c = '\n'
    · rw [if_pos hc] at h
      cases hst : starThenPlusLen rest with
      | some m =>
        rw [hst] at h
        simp only [Option.some.injEq, Prod.mk.injEq] at h
        obtain ⟨hp, hr, hn⟩ := h
        subst hp
        subst hr
        subst hn
        refine ⟨by rw [hc, List.nil_append], hst, ?_⟩
        intro x y hxy
        exact absurd hxy.symm (by simp)
      | none =>
        rw [hst] at h
        cases hfs : findSep rest with
        | none => rw [hfs] at h; simp at h
        | some pr =>
          obtain ⟨p', r', n'⟩ := pr
          rw [hfs] at h
          simp only [Option.some.injEq, Prod.mk.injEq] at h
          obtain ⟨hp, hr, hn⟩ := h
          obtain ⟨hcs, hst', hmin⟩ := ih hfs
          subst hr
          subst hn
          refine ⟨by rw [← hp, List.cons_append, ← hcs], hst', ?_⟩
          intro x y hxy
          cases x with
          | nil =>
            rw [List.nil_append] at hxy
            rw [← hp, hc, List.cons.injEq] at hxy
            rw [← hxy.2, ← hcs]
            exact hst
          | cons x₀ x' =>
            rw [← hp] at hxy
            rw [List.cons_append, List.cons.injEq] at hxy
            exact hmin x' y hxy.2
    · rw [if_neg hc] at h
      cases hfs : findSep rest with
      | none => rw [hfs] at h; simp at h
      | some pr =>
        obtain ⟨p', r', n'⟩ := pr
        rw [hfs] at h
        simp only [Option.some.injEq, Prod.mk.injEq] at h
        obtain ⟨hp, hr, hn⟩ := h
        obtain ⟨hcs, hst', hmin⟩ := ih hfs
        subst hr
        subst hn
        refine ⟨by rw [← hp, List.cons_append, hcs], hst', ?_⟩
        intro x y hxy
        cases x with
        | nil =>
          rw [List.nil_append] at hxy
          rw [← hp, List.cons.injEq] at hxy
          exact absurd hxy.1 hc
        | cons x₀ x' =>
          rw [← hp] at hxy
          rw [List.cons_append, List.cons.injEq] at hxy
          exact hmin x' y hxy.2

theorem reSplitGo_sufficient : ∀ (f g : Nat) (acc cs : List Char),
    cs.length < f → cs.length < g → reSplitGo f acc cs = reSplitGo g acc cs := by
  intro f
  induction f with
  | zero => intro g acc cs h1 _; exact absurd h1 (Nat.not_lt_zero _)
  | succ f ih =>
    intro g acc cs h1 h2
    cases g with
    | zero => exact absurd h2 (Nat.not_lt_zero _)
    | succ g =>
      cases cs with
      | nil => rfl
      | cons c rest =>
        have hf : rest.length < f := Nat.lt_of_succ_lt_succ h1
        have hg : rest.length < g := Nat.lt_of_succ_lt_succ h2
        simp only [reSplitGo]
        by_cases hc : c = '\n'
        · rw [if_pos hc, if_pos hc]
          cases hst : starThenPlusLen rest with
          | some n =>
            have hb1 : (rest.drop n).length < f := by
              rw [List.length_drop]
              omega
            have hb2 : (rest.drop n).length < g := by
              rw [List.length_drop]
              omega
            show acc.reverse :: reSplitGo f [] (rest.drop n) =
              acc.reverse :: reSplitGo g [] (rest.drop n)
            congr 1
            exact ih g [] (rest.drop n) hb1 hb2
          | none =>
            show reSplitGo f (c :: acc) rest = reSplitGo g (c :: acc) rest
            exact ih g _ rest hf hg
        · rw [if_neg hc, if_neg hc]
          exact ih g _ rest hf hg

theorem reSplitGo_sepFree : ∀ (f : Nat) (acc cs : List Char),
    sepFree cs → cs.length < f → reSplitGo f acc cs = [acc.reverse ++ cs] := by
  intro f
  induction f with
  | zero => intro acc cs _ h; exact absurd h (Nat.not_lt_zero _)
  | succ f ih =>
    intro acc cs hsf hlen
    cases cs with
    | nil => simp [reSplitGo]
    | cons c rest =>
      have hbound : rest.length < f := Nat.lt_of_succ_lt_succ hlen
      have hrest_sf : sepFree rest := fun pre r heq =>
        hsf (c :: pre) r (by rw [heq, List.cons_append])
      simp only [reSplitGo]
      by_cases hc : c = '\n'
      · rw [if_pos hc]
        have hnone : starThenPlusLen rest = none := by
          refine hsf [] rest ?_
          rw [hc, List.nil_append]
        rw [hnone]
        show reSplitGo f (c :: acc) rest = [acc.reverse ++ c :: rest]
        rw [ih (c :: acc) rest hrest_sf hbound]
        simp
      · rw [if_neg hc]
        rw [ih (c :: acc) rest hrest_sf hbound]
        simp

theorem reSplitGo_first_sep : ∀ (p : List Char) (f : Nat) (acc r : List Char)
    (n : Nat),
    (∀ x y, p = x ++ '\n' :: y → starThenPlusLen (y ++ '\n' :: r) = none) →
    starThenPlusLen r = some n → (p ++ '\n' :: r).length < f →
    reSplitGo f acc (p ++ '\n' :: r) =
      (acc.reverse ++ p) :: pySplitBlank (r.drop n) := by
  intro p
  induction p with
  | nil =>
    intro f acc r n hmin hst hf
    cases f with
    | zero => simp at hf
    | succ f =>
      rw [List.nil_append]
      simp only [reSplitGo, if_true]
      rw [hst]
      show acc.reverse :: reSplitGo f [] (r.drop n) =
        (acc.reverse ++ []) :: pySplitBlank (r.drop n)
      rw [List.append_nil]
      congr 1
      unfold pySplitBlank
      refine reSplitGo_sufficient f _ [] (r.drop n) ?_ (Nat.lt_succ_self _)
      have h1 : r.length < f := by
        simp only [List.nil_append, List.length_cons] at hf
        omega
      rw [List.length_drop]
      omega
  | cons c p' ih =>
    intro f acc r n hmin hst hf
    cases f with
    | zero => simp at hf
    | succ f =>
      rw [List.cons_append]
      simp only [reSplitGo]
      have hbound : (p' ++ '\n' :: r).length < f := by
        simp only [List.cons_append, List.length_cons] at hf
        simp only [List.length_append, List.length_cons] at *
        omega
      have hmin' : ∀ x y, p' = x ++ '\n' :: y →
          starThenPlusLen (y ++ '\n' :: r) = none := fun x y hxy =>
        hmin (c :: x) y (by rw [hxy, List.cons_append])
      by_cases hc : c = '\n'
      · rw [if_pos hc]
        have hnone : starThenPlusLen (p' ++ '\n' :: r) = none := by
          refine hmin [] p' ?_
          rw [hc, List.nil_append]
        rw [hnone]
        show reSplitGo f (c :: acc) (p' ++ '\n' :: r) = _
        rw [ih f (c :: acc) r n hmin' hst hbound]
        congr 1
        simp
      · rw [if_neg hc]
        rw [ih f (c :: acc) r n hmin' hst hbound]
        congr 1
        simp

theorem isBlank_iff {l : List Char} :
    isBlank l = true ↔ ∀ c ∈ l, pySpace c = true := by
  unfold isBlank
  exact List.all_eq_true

theorem not_isBlank_ex {l : List Char} (h : isBlank l = false) :
    ∃ c ∈ l, pySpace c = false := by
  by_contra hno
  push_neg at hno
  have : isBlank l = true := isBlank_iff.mpr (by
    intro c hc
    rcases Bool.eq_false_or_eq_true (pySpace c) with h1 | h2
    · exact h1
    · exact absurd h2 (hno c hc))
  rw [h] at this
  simp at this

theorem pyStrip_ne_nil_of_ex {x : List Char}
    (h : ∃ c ∈ x, pySpace c = false) : pyStrip x ≠ [] := by
  intro he
  obtain ⟨c, hc, hp⟩ := h
  rw [pyStrip_eq_nil_iff.mp he c hc] at hp
  simp at hp

theorem splitNl_all_blank {w : List Char} (hw : ∀ c ∈ w, pySpace c = true) :
    ∀ l ∈ splitNl w, isBlank l = true := by
  intro l hl
  exact isBlank_iff.mpr (fun c hc => hw c (mem_of_mem_line hl hc))

theorem strip_ic_ne_nil {run : List (List Char)} {m : List Char}
    (hm : m ∈ run) (hnb : isBlank m = false) :
    pyStrip (List.intercalate ['\n'] run) ≠ [] := by
  obtain ⟨c, hc, hp⟩ := not_isBlank_ex hnb
  exact pyStrip_ne_nil_of_ex ⟨c, mem_intercalate_of_mem hc hm, hp⟩

theorem strip_ic_absorb_head {l₀ : List Char} {rest : List (List Char)}
    (hb : isBlank l₀ = true) (hne : rest ≠ []) :
    pyStrip (List.intercalate ['\n'] (l₀ :: rest)) =
      pyStrip (List.intercalate ['\n'] rest) := by
  rw [intercalate_cons hne]
  have hshape : l₀ ++ ['\n'] ++ List.intercalate ['\n'] rest =
      (l₀ ++ ['\n']) ++ List.intercalate ['\n'] rest := by simp
  rw [hshape, pyStrip_absorb_left]
  intro c hc
  rcases List.mem_append.mp hc with h1 | h2
  · exact isBlank_iff.mp hb c h1
  · rw [List.mem_singleton.mp h2]
    exact pySpace_nl

theorem strip_ic_absorb_last {lz : List Char} {init : List (List Char)}
    (hb : isBlank lz = true) (hne : init ≠ []) :
    pyStrip (List.intercalate ['\n'] (init ++ [lz])) =
      pyStrip (List.intercalate ['\n'] init) := by
  rw [intercalate_append init [lz] hne (by simp), intercalate_single]
  have hshape : List.intercalate ['\n'] init ++ ['\n'] ++ lz =
      List.intercalate ['\n'] init ++ (['\n'] ++ lz) := by simp
  rw [hshape, pyStrip_absorb_right]
  intro c hc
  rcases List.mem_append.mp hc with h1 | h2
  · rw [List.mem_singleton.mp h1]
    exact pySpace_nl
  · exact isBlank_iff.mp hb c h2

theorem sepFree_mid_not_ws {t : List Char} (hsf : sepFree t) :
    ∀ x m y, t = x ++ '\n' :: (m ++ '\n' :: y) →
      ∃ c ∈ m, pySpace c = false := by
  intro x m y heq
  by_contra hno
  push_neg at hno
  have hall : ∀ c ∈ m, pySpace c = true := by
    intro c hc
    rcases Bool.eq_false_or_eq_true (pySpace c) with h1 | h2
    · exact h1
    · exact absurd h2 (hno c hc)
  have hnone := hsf x (m ++ '\n' :: y) heq
  have hnl : '\n' ∈ (m ++ '\n' :: y).takeWhile pySpace := by
    rw [List.takeWhile_append_of_pos hall,
      List.takeWhile_cons_of_pos pySpace_nl]
    exact List.mem_append.mpr (Or.inr (List.mem_cons_self _ _))
  obtain ⟨n, hn⟩ := starThenPlusLen_some_of_nl hnl
  rw [hnone] at hn
  simp at hn

theorem sepFree_interior_nonblank {t : List Char} (hsf : sepFree t) :
    ∀ pre l post, splitNl t = pre ++ l :: post → pre ≠ [] → post ≠ [] →
      isBlank l = false := by
  intro pre l post hls hpre hpost
  have ht : t = List.intercalate ['\n'] pre ++
      '\n' :: (l ++ '\n' :: List.intercalate ['\n'] post) := by
    conv_lhs => rw [← intercalate_splitNl t]
    rw [hls, intercalate_append pre (l :: post) hpre (by simp),
      intercalate_cons hpost]
    simp
  obtain ⟨c, hc, hp⟩ := sepFree_mid_not_ws hsf _ _ _ ht
  rcases Bool.eq_false_or_eq_true (isBlank l) with h1 | h2
  · rw [isBlank_iff.mp h1 c hc] at hp
    simp at hp
  · exact h2

theorem filter_single_ne {x : List Char} (h : x ≠ []) :
    List.filter (fun b => !b.isEmpty) [x] = [x] := by
  have hpos : (!x.isEmpty) = true := by simpa using h
  simp [List.filter, hpos]

theorem segmentSpec_of_sepFree {t : List Char} (hsf : sepFree t) :
    segmentSpec t = if (pyStrip t).isEmpty then [] else [pyStrip t] := by
  unfold segmentSpec
  cases hls : splitNl t with
  | nil => exact absurd hls (splitNl_ne_nil t)
  | cons l₀ ls' =>
    have hic : List.intercalate ['\n'] (l₀ :: ls') = t := by
      rw [← hls]
      exact intercalate_splitNl t
    rcases List.eq_nil_or_concat ls' with hnil | ⟨mid, lz, hcat⟩
    · subst hnil
      rw [intercalate_single] at hic
      by_cases hb : isBlank l₀ = true
      · rw [groupNB_step_blank hb, groupNB_nil]
        have hstrip : pyStrip t = [] := by
          rw [← hic]
          exact pyStrip_eq_nil_iff.mpr (isBlank_iff.mp hb)
        rw [hstrip]
        rfl
      · have hb' : isBlank l₀ = false := Bool.eq_false_iff.mpr hb
        rw [groupNB_all_nonblank (by simp)
          (by intro l hl; rw [List.mem_singleton.mp hl]; exact hb')]
        rw [List.map_cons, List.map_nil, intercalate_single, hic]
        have hne : pyStrip t ≠ [] := by
          rw [← hic]
          exact pyStrip_ne_nil_of_ex (not_isBlank_ex hb')
        rw [if_neg (by simpa using hne)]
        exact filter_single_ne hne
    · subst hcat
      simp only [List.concat_eq_append] at hls hic ⊢
      have hmid : ∀ m ∈ mid, isBlank m = false := by
        intro m hm
        obtain ⟨s, u, hsu⟩ := List.append_of_mem hm
        refine sepFree_interior_nonblank hsf (l₀ :: s) m (u ++ [lz]) ?_
          (by simp) (by simp)
        rw [hls, hsu]
        simp
      by_cases hb0 : isBlank l₀ = true
      · by_cases hbz : isBlank lz = true
        · by_cases hmidc : mid = []
          · subst hmidc
            rw [groupNB_step_blank hb0]
            rw [List.nil_append]
            rw [groupNB_step_blank hbz, groupNB_nil]
            have hstrip : pyStrip t = [] := by
              rw [← hic]
              refine pyStrip_eq_nil_iff.mpr ?_
              intro c hc
              rcases mem_of_mem_intercalate hc with h1 | ⟨l, hl, hcl⟩
              · rw [List.mem_singleton.mp h1]
                exact pySpace_nl
              · rcases List.mem_cons.mp hl with h2 | h3
                · exact isBlank_iff.mp hb0 c (h2 ▸ hcl)
                · rw [List.nil_append] at h3
                  rw [List.mem_singleton.mp h3] at hcl
                  exact isBlank_iff.mp hbz c hcl
            rw [hstrip]
            rfl
          · have hmidne : mid ≠ [] := hmidc
            obtain ⟨m₀, mid', hmc⟩ := List.exists_cons_of_ne_nil hmidne
            rw [groupNB_step_blank hb0]
            have hsplit2 : mid ++ [lz] = mid ++ [lz] ++ [] := by simp
            rw [hsplit2, groupNB_split_at_blanks mid.length mid [lz] []
              (Nat.le_refl _) (by simp)
              (by intro b hb; rw [List.mem_singleton.mp hb]; exact hbz)]
            rw [groupNB_all_nonblank hmidne hmid, groupNB_nil]
            have hstrip : pyStrip t = pyStrip (List.intercalate ['\n'] mid) := by
              rw [← hic, strip_ic_absorb_head hb0 (by simp),
                strip_ic_absorb_last hbz hmidne]
            have hne : pyStrip (List.intercalate ['\n'] mid) ≠ [] := by
              refine strip_ic_ne_nil ?_ (hmid m₀ (by rw [hmc]; simp))
              rw [hmc]
              simp
            rw [List.append_nil, List.map_cons, List.map_nil, hstrip]
            rw [if_neg (by simpa using hne)]
            exact filter_single_ne hne
        · have hbz' : isBlank lz = false := Bool.eq_false_iff.mpr hbz
          have hrun : ∀ m ∈ mid ++ [lz], isBlank m = false := by
            intro m hm
            rcases List.mem_append.mp hm with h1 | h2
            · exact hmid m h1
            · rw [List.mem_singleton.mp h2]
              exact hbz'
          rw [groupNB_step_blank hb0,
            groupNB_all_nonblank (by simp) hrun]
          have hstrip : pyStrip t =
              pyStrip (List.intercalate ['\n'] (mid ++ [lz])) := by
            rw [← hic, strip_ic_absorb_head hb0 (by simp)]
          have hne : pyStrip (List.intercalate ['\n'] (mid ++ [lz])) ≠ [] :=
            strip_ic_ne_nil (by simp) hbz'
          rw [List.map_cons, List.map_nil, hstrip]
          rw [if_neg (by simpa using hne)]
          exact filter_single_ne hne
      · have hb0' : isBlank l₀ = false := Bool.eq_false_iff.mpr hb0
        by_cases hbz : isBlank lz = true
        · have hrun : ∀ m ∈ l₀ :: mid, isBlank m = false := by
            intro m hm
            rcases List.mem_cons.mp hm with h1 | h2
            · exact h1 ▸ hb0'
            · exact hmid m h2
          have hshape : l₀ :: (mid ++ [lz]) = (l₀ :: mid) ++ [lz] ++ [] := by
            simp
          rw [hshape, groupNB_split_at_blanks (l₀ :: mid).length (l₀ :: mid)
            [lz] [] (Nat.le_refl _) (by simp)
            (by intro b hb; rw [List.mem_singleton.mp hb]; exact hbz)]
          rw [groupNB_all_nonblank (by simp) hrun, groupNB_nil]
          have hstrip : pyStrip t =
              pyStrip (List.intercalate ['\n'] (l₀ :: mid)) := by
            rw [← hic]
            have : l₀ :: (mid ++ [lz]) = (l₀ :: mid) ++ [lz] := by simp
            rw [this, strip_ic_absorb_last hbz (by simp)]
          have hne : pyStrip (List.intercalate ['\n'] (l₀ :: mid)) ≠ [] :=
            strip_ic_ne_nil (List.mem_cons_self _ _) hb0'
          rw [List.append_nil, List.map_cons, List.map_nil, hstrip]
          rw [if_neg (by simpa using hne)]
          exact filter_single_ne hne
        · have hbz' : isBlank lz = false := Bool.eq_false_iff.mpr hbz
          have hrun : ∀ m ∈ l₀ :: (mid ++ [lz]), isBlank m = false := by
            intro m hm
            rcases List.mem_cons.mp hm with h1 | h2
            · exact h1 ▸ hb0'
            · rcases List.mem_append.mp h2 with h3 | h4
              · exact hmid m h3
              · rw [List.mem_singleton.mp h4]
                exact hbz'
          rw [groupNB_all_nonblank (by simp) hrun]
          have hne : pyStrip t ≠ [] := by
            rw [← hic]
            exact strip_ic_ne_nil (List.mem_cons_self _ _) hb0'
          rw [List.map_cons, List.map_nil, hic]
          rw [if_neg (by simpa using hne)]
          exact filter_single_ne hne

theorem splitBlank_segmentSpecN : ∀ (N : Nat) (t : List Char), t.length ≤ N →
    ((pySplitBlank t).map pyStrip).filter (fun b => !b.isEmpty) =
      segmentSpec t := by
  intro N
  induction N with
  | zero =>
    intro t hlen
    have ht : t = [] := List.eq_nil_of_length_eq_zero (Nat.le_zero.mp hlen)
    subst ht
    rfl
  | succ N ih =>
    intro t hlen
    cases hfs : findSep t with
    | none =>
      have hsf := findSep_none_sepFree hfs
      have hsplit : pySplitBlank t = [t] := by
        show reSplitGo (t.length + 1) [] t = [t]
        rw [reSplitGo_sepFree _ [] t hsf (Nat.lt_succ_self _)]
        rfl
      rw [hsplit, segmentSpec_of_sepFree hsf, List.map_cons, List.map_nil]
      by_cases he : pyStrip t = []
      · rw [he]
        simp
      · rw [if_neg (by simpa using he)]
        exact filter_single_ne he
    | some res =>
      obtain ⟨p, r, n⟩ := res
      obtain ⟨ht, hst, hmin⟩ := findSep_some_shape hfs
      obtain ⟨w, v, z, hr, hn, hw, hv, hvn, hz⟩ := starThenPlusLen_some_shape hst
      have hdrop : r.drop n = v ++ z := by
        rw [hr, hn]
        have hshape : w ++ '\n' :: (v ++ z) = (w ++ ['\n']) ++ (v ++ z) := by
          simp
        have hlen1 : w.length + 1 = (w ++ ['\n']).length + 0 := by simp
        rw [hshape, hlen1, drop_append_len, List.drop_zero]
      have hsepp : sepFree p := by
        intro x y hxy
        cases hsty : starThenPlusLen y with
        | none => rfl
        | some m =>
          obtain ⟨m2, hm2⟩ := starThenPlusLen_append_some (q := '\n' :: r) hsty
          rw [hmin x y hxy] at hm2
          simp at hm2
      have hLHS : pySplitBlank t = p :: pySplitBlank (v ++ z) := by
        show reSplitGo (t.length + 1) [] t = _
        rw [ht, reSplitGo_first_sep p _ [] r n hmin hst (Nat.lt_succ_self _),
          hdrop]
        rfl
      have hlines : splitNl t = splitNl p ++ (splitNl w ++ splitNl (v ++ z)) := by
        rw [ht, hr, splitNl_append_cons, splitNl_append_cons]
      have hgroup : groupNB (splitNl t) =
          groupNB (splitNl p) ++ groupNB (splitNl (v ++ z)) := by
        rw [hlines]
        have hshape : splitNl p ++ (splitNl w ++ splitNl (v ++ z)) =
            splitNl p ++ splitNl w ++ splitNl (v ++ z) := by simp
        rw [hshape]
        exact groupNB_split_at_blanks (splitNl p).length (splitNl p)
          (splitNl w) (splitNl (v ++ z)) (Nat.le_refl _) (splitNl_ne_nil w)
          (splitNl_all_blank hw)
      have hRHS : segmentSpec t = segmentSpec p ++ segmentSpec (v ++ z) := by
        unfold segmentSpec
        rw [hgroup, List.map_append, List.filter_append]
      have hlen2 : (v ++ z).length ≤ N := by
        have hlt := congrArg List.length ht
        rw [hr] at hlt
        simp only [List.length_append, List.length_cons] at hlt ⊢
        omega
      have hih := ih (v ++ z) hlen2
      rw [hLHS, hRHS, List.map_cons, List.filter_cons, hih,
        segmentSpec_of_sepFree hsepp]
      by_cases he : pyStrip p = []
      · rw [he]
        simp
      · rw [if_pos (by simpa using he), if_neg (by simpa using he)]
        rfl

theorem splitBlank_segmentSpec (t : List Char) :
    ((pySplitBlank t).map pyStrip).filter (fun b => !b.isEmpty) =
      segmentSpec t :=
  splitBlank_segmentSpecN t.length t (Nat.le_refl _)

theorem mem_dropWhile_of_neg {c : Char} {q : Char → Bool} {l : List Char}
    (hc : c ∈ l) (hp : q c = false) : c ∈ l.dropWhile q := by
  have hsplit : l.takeWhile q ++ l.dropWhile q = l :=
    List.takeWhile_append_dropWhile q l
  rw [← hsplit] at hc
  rcases List.mem_append.mp hc with h1 | h2
  · rw [List.mem_takeWhile_imp h1] at hp
    simp at hp
  · exact h2

theorem dropWhile_append_ne {q : Char → Bool} {l₁ l₂ : List Char}
    (h : l₁.dropWhile q ≠ []) :
    (l₁ ++ l₂).dropWhile q = l₁.dropWhile q ++ l₂ := by
  rw [List.dropWhile_append]
  simp [h]

theorem not_isBlank_of_mem {c : Char} {l : List Char} (hc : c ∈ l)
    (hp : pySpace c = false) : isBlank l = false := by
  rcases Bool.eq_false_or_eq_true (isBlank l) with h1 | h2
  · rw [isBlank_iff.mp h1 c hc] at hp
    simp at hp
  · exact h2

theorem nonblank_dropWhile_ne {l : List Char} (h : isBlank l = false) :
    l.dropWhile pySpace ≠ [] := by
  obtain ⟨c, hc, hp⟩ := not_isBlank_ex h
  intro he
  exact absurd (he ▸ mem_dropWhile_of_neg hc hp) (List.not_mem_nil c)

theorem mem_of_mem_stripR {c : Char} {x : List Char}
    (h : c ∈ (x.reverse.dropWhile pySpace).reverse) : c ∈ x := by
  rw [List.mem_reverse] at h
  have h2 := (List.dropWhile_sublist pySpace (l := x.reverse)).subset h
  rwa [List.mem_reverse] at h2

theorem mem_stripR_of_neg {c : Char} {x : List Char} (hc : c ∈ x)
    (hp : pySpace c = false) : c ∈ (x.reverse.dropWhile pySpace).reverse := by
  rw [List.mem_reverse]
  exact mem_dropWhile_of_neg (List.mem_reverse.mpr hc) hp

theorem dropWhile_intercalate {l₀ : List Char} {rest : List (List Char)}
    (h : isBlank l₀ = false) :
    (List.intercalate ['\n'] (l₀ :: rest)).dropWhile pySpace =
      List.intercalate ['\n'] (l₀.dropWhile pySpace :: rest) := by
  cases rest with
  | nil => rw [intercalate_single, intercalate_single]
  | cons r1 rest' =>
    have hne2 : (r1 :: rest' : List (List Char)) ≠ [] := by simp
    conv_lhs => rw [intercalate_cons hne2]
    conv_rhs => rw [intercalate_cons hne2]
    have hshape : l₀ ++ ['\n'] ++ List.intercalate ['\n'] (r1 :: rest') =
        l₀ ++ (['\n'] ++ List.intercalate ['\n'] (r1 :: rest')) := by simp
    rw [hshape, dropWhile_append_ne (nonblank_dropWhile_ne h)]
    simp

theorem stripR_intercalate {lk : List Char} {init : List (List Char)}
    (h : isBlank lk = false) :
    ((List.intercalate ['\n'] (init ++ [lk])).reverse.dropWhile
        pySpace).reverse =
      List.intercalate ['\n']
        (init ++ [(lk.reverse.dropWhile pySpace).reverse]) := by
  have hrevnb : isBlank lk.reverse = false := by
    obtain ⟨c, hc, hp⟩ := not_isBlank_ex h
    exact not_isBlank_of_mem (List.mem_reverse.mpr hc) hp
  cases hini : init with
  | nil =>
    rw [List.nil_append, List.nil_append, intercalate_single,
      intercalate_single]
  | cons i0 init' =>
    have hne : init ≠ [] := by rw [hini]; simp
    rw [← hini]
    rw [intercalate_append init [lk] hne (by simp), intercalate_single,
      intercalate_append init [(lk.reverse.dropWhile pySpace).reverse] hne
        (by simp), intercalate_single]
    have hrev : (List.intercalate ['\n'] init ++ ['\n'] ++ lk).reverse =
        lk.reverse ++ (['\n'] ++ (List.intercalate ['\n'] init).reverse) := by
      simp
    rw [hrev, dropWhile_append_ne (nonblank_dropWhile_ne hrevnb)]
    simp

theorem segmentSpec_para_props {u p : List Char} (hp : p ∈ segmentSpec u) :
    p ≠ [] ∧ pyStrip p = p ∧ (∀ l ∈ splitNl p, isBlank l = false) ∧
      ∀ c ∈ p, c = '\n' ∨ c ∈ u := by
  unfold segmentSpec at hp
  have hf := List.of_mem_filter hp
  have hm := List.mem_of_mem_filter hp
  obtain ⟨run, hrun, hpr⟩ := List.mem_map.mp hm
  obtain ⟨hrne, hrnb, hrmem⟩ := groupNB_runs_props (splitNl u).length
    (splitNl u) (Nat.le_refl _) run hrun
  have hrnn : ∀ l ∈ run, '\n' ∉ l := fun l hl =>
    no_nl_of_mem_splitNl (hrmem l hl)
  have hpne : p ≠ [] := by simpa using hf
  have hidem : pyStrip p = p := by
    rw [← hpr, pyStrip_idem]
  have hchars : ∀ c ∈ p, c = '\n' ∨ c ∈ u := by
    intro c hc
    rw [← hpr] at hc
    rcases mem_of_mem_intercalate (pyStrip_mem hc) with h1 | ⟨l, hl, hcl⟩
    · exact Or.inl (List.mem_singleton.mp h1)
    · exact Or.inr (mem_of_mem_line (hrmem l hl) hcl)
  refine ⟨hpne, hidem, ?_, hchars⟩
  cases hrc : run with
  | nil => exact absurd hrc hrne
  | cons l₀ rest =>
    have hbl₀ : isBlank l₀ = false := hrnb l₀ (by rw [hrc]; simp)
    have hB : pyStrip (List.intercalate ['\n'] run) =
        ((List.intercalate ['\n']
            (l₀.dropWhile pySpace :: rest)).reverse.dropWhile
          pySpace).reverse := by
      show (((List.intercalate ['\n'] run).dropWhile
          pySpace).reverse.dropWhile pySpace).reverse = _
      rw [hrc, dropWhile_intercalate hbl₀]
    rcases List.eq_nil_or_concat rest with hnil | ⟨mid, lk, hcat⟩
    · subst hnil
      rw [intercalate_single] at hB
      have hpval : p = (( (l₀.dropWhile pySpace).reverse.dropWhile
          pySpace).reverse) := by
        rw [← hpr, hB]
      obtain ⟨c, hc, hws⟩ := not_isBlank_ex hbl₀
      have hcm : c ∈ p := by
        rw [hpval]
        exact mem_stripR_of_neg (mem_dropWhile_of_neg hc hws) hws
      have hnn : '\n' ∉ p := by
        intro hnl
        rw [hpval] at hnl
        have h2 := (List.dropWhile_sublist pySpace (l := l₀)).subset
          (mem_of_mem_stripR hnl)
        exact hrnn l₀ (by rw [hrc]; simp) h2
      rw [splitNl_no_nl hnn]
      intro l hl
      rw [List.mem_singleton.mp hl]
      exact not_isBlank_of_mem hcm hws
    · subst hcat
      simp only [List.concat_eq_append] at hrc hB
      have hbk : isBlank lk = false := hrnb lk (by rw [hrc]; simp)
      have hcons : l₀.dropWhile pySpace :: (mid ++ [lk]) =
          (l₀.dropWhile pySpace :: mid) ++ [lk] := by simp
      rw [hcons, stripR_intercalate hbk] at hB
      have hpval : p = List.intercalate ['\n']
          ((l₀.dropWhile pySpace :: mid) ++
            [(lk.reverse.dropWhile pySpace).reverse]) := by
        rw [← hpr, hB]
      have hlines : splitNl p =
          (l₀.dropWhile pySpace :: mid) ++
            [(lk.reverse.dropWhile pySpace).reverse] := by
        rw [hpval]
        refine splitNl_intercalate (by simp) ?_
        intro l hl
        rcases List.mem_append.mp hl with h1 | h2
        · rcases List.mem_cons.mp h1 with h3 | h4
          · subst h3
            intro hnl
            exact hrnn l₀ (by rw [hrc]; simp)
              ((List.dropWhile_sublist pySpace (l := l₀)).subset hnl)
          · exact hrnn l (by rw [hrc]; simp [h4])
        · rw [List.mem_singleton.mp h2]
          intro hnl
          exact hrnn lk (by rw [hrc]; simp) (mem_of_mem_stripR hnl)
      rw [hlines]
      intro l hl
      rcases List.mem_append.mp hl with h1 | h2
      · rcases List.mem_cons.mp h1 with h3 | h4
        · subst h3
          obtain ⟨c, hc, hws⟩ := not_isBlank_ex hbl₀
          exact not_isBlank_of_mem (mem_dropWhile_of_neg hc hws) hws
        · exact hrnb l (by rw [hrc]; simp [h4])
      · rw [List.mem_singleton.mp h2]
        obtain ⟨c, hc, hws⟩ := not_isBlank_ex hbk
        exact not_isBlank_of_mem (mem_stripR_of_neg hc hws) hws

theorem segmentSpec_of_para {p : List Char} (hne : p ≠ [])
    (hst : pyStrip p = p) (hnb : ∀ l ∈ splitNl p, isBlank l = false) :
    segmentSpec p = [p] := by
  unfold segmentSpec
  rw [groupNB_all_nonblank (splitNl_ne_nil p) hnb]
  rw [List.map_cons, List.map_nil, intercalate_splitNl, hst]
  exact filter_single_ne hne

theorem segmentSpec_join : ∀ ps : List (List Char),
    (∀ p ∈ ps, p ≠ [] ∧ pyStrip p = p ∧ ∀ l ∈ splitNl p, isBlank l = false) →
    segmentSpec (List.intercalate ['\n', '\n'] ps) = ps := by
  intro ps
  induction ps with
  | nil => intro _; rfl
  | cons p rest ih =>
    intro hall
    obtain ⟨hne, hst, hnb⟩ := hall p (List.mem_cons_self p _)
    by_cases hrne : rest = []
    · subst hrne
      rw [intercalate_single]
      exact segmentSpec_of_para hne hst hnb
    · have hic : List.intercalate ['\n', '\n'] (p :: rest) =
          p ++ '\n' :: ('\n' :: List.intercalate ['\n', '\n'] rest) := by
        rw [intercalate_cons hrne]
        simp
      rw [hic]
      unfold segmentSpec
      rw [splitNl_append_cons, splitNl_cons_nl]
      have hshape : splitNl p ++
          [] :: splitNl (List.intercalate ['\n', '\n'] rest) =
          splitNl p ++ [[]] ++
            splitNl (List.intercalate ['\n', '\n'] rest) := by simp
      rw [hshape, groupNB_split_at_blanks (splitNl p).length (splitNl p)
        [[]] (splitNl (List.intercalate ['\n', '\n'] rest)) (Nat.le_refl _)
        (by simp) (by intro b hb; rw [List.mem_singleton.mp hb]; rfl)]
      rw [groupNB_all_nonblank (splitNl_ne_nil p) hnb]
      rw [List.map_append, List.filter_append, List.map_cons, List.map_nil,
        intercalate_splitNl, hst, filter_single_ne hne]
      have htail : List.filter (fun b => !b.isEmpty)
          (List.map (fun run => pyStrip (List.intercalate ['\n'] run))
            (groupNB (splitNl (List.intercalate ['\n', '\n'] rest)))) =
          segmentSpec (List.intercalate ['\n', '\n'] rest) := rfl
      rw [htail, ih (fun q hq => hall q (List.mem_cons_of_mem p hq))]
      rfl

theorem no_cr_replaceCR (x : List Char) : '\r' ∉ replaceCR x := by
  intro h
  unfold replaceCR at h
  obtain ⟨c, -, hc⟩ := List.mem_map.mp h
  by_cases h1 : c == '\r'
  · rw [if_pos h1] at hc
    exact absurd hc (by decide)
  · rw [if_neg h1] at hc
    rw [hc] at h1
    simp at h1

theorem no_cr_normalizeNewlines (t : List Char) :
    '\r' ∉ normalizeNewlines t := by
  show '\r' ∉ replaceCR (replaceCRLF t)
  exact no_cr_replaceCR _

theorem segmentBlocks_eq_spec_of_no_cr {t : List Char} (h : '\r' ∉ t) :
    segmentBlocks t = segmentSpec t := by
  unfold segmentBlocks
  rw [normalizeNewlines_of_no_cr h]
  exact splitBlank_segmentSpec t

/-- **C4**: On normalized text (no carriage returns remain after
normalization), the code's segmenter — `re.split` on the blank-line
pattern, strip, drop empties — agrees with the specified segmentation:
split at every run of one or more blank lines (a line empty after
trimming), trim each chunk, discard chunks empty after trimming, keep
source order; and no element of the output is empty or whitespace-only. -/
theorem c4_segmenter_blank_line_split {t : List Char} (h : '\r' ∉ t) :
    segmentBlocks t = segmentSpec t ∧
      ∀ p ∈ segmentBlocks t, p ≠ [] ∧ ∃ c ∈ p, pySpace c = false := by
  have heq : segmentBlocks t = segmentSpec t :=
    segmentBlocks_eq_spec_of_no_cr h
  refine ⟨heq, ?_⟩
  intro p hp
  rw [heq] at hp
  obtain ⟨h1, h2, -, -⟩ := segmentSpec_para_props hp
  refine ⟨h1, ?_⟩
  rcases Bool.eq_false_or_eq_true (isBlank p) with hb | hb
  · exact absurd (h2.symm.trans (pyStrip_eq_nil_iff.mpr (isBlank_iff.mp hb)))
      h1
  · exact not_isBlank_ex hb

theorem c4_witness :
    ('\r' ∉ ['F', 'o', 'o', '\n', ' ', ' ', '\n', 'B', 'a', 'r']) ∧
      (segmentBlocks ['F', 'o', 'o', '\n', ' ', ' ', '\n', 'B', 'a', 'r'] =
          segmentSpec ['F', 'o', 'o', '\n', ' ', ' ', '\n', 'B', 'a', 'r'] ∧
        ∀ p ∈ segmentBlocks ['F', 'o', 'o', '\n', ' ', ' ', '\n', 'B', 'a', 'r'],
          p ≠ [] ∧ ∃ c ∈ p, pySpace c = false) :=
  ⟨by decide, c4_segmenter_blank_line_split (by decide)⟩

/-- **C7**: Round-trip segmentation — joining the segmenter's output with a
blank-line separator (`"\n\n"`) and segmenting again returns exactly the
same ordered paragraph list. -/
theorem c7_segmentation_roundtrip (t : List Char) :
    segmentBlocks (List.intercalate ['\n', '\n'] (segmentBlocks t)) =
      segmentBlocks t := by
  have hu : segmentBlocks t = segmentSpec (normalizeNewlines t) := by
    unfold segmentBlocks
    exact splitBlank_segmentSpec _
  have hprops : ∀ p ∈ segmentBlocks t, p ≠ [] ∧ pyStrip p = p ∧
      ∀ l ∈ splitNl p, isBlank l = false := by
    intro p hp
    rw [hu] at hp
    obtain ⟨h1, h2, h3, -⟩ := segmentSpec_para_props hp
    exact ⟨h1, h2, h3⟩
  have hnocr : '\r' ∉ List.intercalate ['\n', '\n'] (segmentBlocks t) := by
    intro hcr
    rcases mem_of_mem_intercalate hcr with h1 | ⟨p, hp, hcp⟩
    · exact absurd h1 (by decide)
    · rw [hu] at hp
      obtain ⟨-, -, -, h4⟩ := segmentSpec_para_props hp
      rcases h4 '\r' hcp with h5 | h6
      · exact absurd h5 (by decide)
      · exact absurd h6 (no_cr_normalizeNewlines t)
  rw [segmentBlocks_eq_spec_of_no_cr hnocr, segmentSpec_join _ hprops]
